import Mathlib

/-!
# Message composer: markdown plugin and send-message serializer

A shallow embedding of `src/plugins/markdown/index.js` and
`src/components/ComposerSlate/send-message.js`.

Conventions of the embedding.

* A JavaScript string is a Lean `String`; `s.length` stands for the JavaScript
  `.length` (one `Char` per code unit, exact for text of the basic plane).
* The module-level `let` variables (`codeBeginPointer`, `listStartNode`,
  `listEndNode`, `mentions`, `groupMentions`) are threaded as explicit state.
* The Slate `editor` is an external object: a function that calls it returns the
  ordered list of commands it issued.
* `Prism.tokenize` is external: a function that calls it takes the tokenizer as
  an argument, or the token list it returned.
* A function that can raise a `TypeError` returns `Except`.
-/

namespace MessageComposer

/-! ## Tokens (the values `Prism.tokenize` returns) -/

/-- A member of a Prism token stream: a plain string, or a `Token` object with
its `type`, its `content` (a string or an array of stream members) and its
`length` field. -/
inductive Token where
  | str (s : String)
  | flat (type : String) (content : String) (length : Nat)
  | nested (type : String) (content : List Token) (length : Nat)
  deriving Repr

/-- The `type` property read off a stream member; a string has none. -/
def Token.type? : Token → Option String
  | .str _ => none
  | .flat t _ _ => some t
  | .nested t _ _ => some t

/-- The `length` property: of the string itself, or the token's field. -/
def Token.length : Token → Nat
  | .str s => s.length
  | .flat _ _ n => n
  | .nested _ _ n => n

/-- Whether `typeof token === 'string'`. -/
def Token.isString : Token → Bool
  | .str _ => true
  | _ => false

/-- The property names every object literal inherits from `Object.prototype`:
a lookup `table[key]` with one of these keys finds an inherited (truthy)
value although the table does not list the key. -/
def inheritedKey (key : String) : Bool :=
  key == "constructor" || key == "__proto__" || key == "hasOwnProperty" ||
  key == "isPrototypeOf" || key == "propertyIsEnumerable" || key == "toLocaleString" ||
  key == "toString" || key == "valueOf" || key == "__defineGetter__" ||
  key == "__defineSetter__" || key == "__lookupGetter__" || key == "__lookupSetter__"

/-- The function `isLineMarkdown`: `!!lineMarkdowns[type]`; the `type` of a
string is `undefined`. -/
def isLineMarkdown (t : Token) : Bool :=
  match t.type? with
  | some ty => ty == "blockquote" || ty == "list" || ty == "title" || inheritedKey ty
  | none => false

/-- The function `canPreview`: `!!previewMarkdowns[type]`. -/
def canPreview (t : Token) : Bool :=
  match t.type? with
  | some ty => ty == "bold" || ty == "code" || ty == "italic" || inheritedKey ty
  | none => false

mutual
/-- The local function `getLength` of `decorateNode`. -/
def getLength : Token → Nat
  | .str s => s.length
  | .flat _ c _ => c.length
  | .nested _ cs _ => getLengthSum cs
/-- The `content.reduce((l, t) => l + getLength(t), 0)` of `getLength`. -/
def getLengthSum : List Token → Nat
  | [] => 0
  | t :: ts => getLength t + getLengthSum ts
end

/-! ## Text leaves and the leaf cursor of `decorateNode` -/

/-- A Slate text node, as far as the plugin reads it: its `key` and `text`. -/
structure Leaf where
  key : String
  text : String
  deriving DecidableEq, Repr

/-- The variables `texts, startText, endText, startOffset, endOffset, start`
of `decorateNode`. `startText`/`endText` are `none` when `texts.shift()` gave
`undefined`. -/
structure Cursor where
  texts : List Leaf
  startText : Option Leaf
  endText : Option Leaf
  startOffset : Int
  endOffset : Int
  start : Int
  deriving DecidableEq, Repr

/-- The function `resetVars`, applied to the block's text leaves. -/
def resetVars (leaves : List Leaf) : Cursor :=
  { texts := leaves.tail
    startText := leaves.head?
    endText := leaves.head?
    startOffset := 0
    endOffset := 0
    start := 0 }

/-- The length `decorateNode` consumes for a token:
`canPreview(token) ? getLength(token) : token.length`. -/
def consumed (t : Token) : Nat :=
  if canPreview t then getLength t else t.length

/-- The loop `while (available < remaining)`: returns the remaining leaves, the
end leaf and the end offset, or `none` when `texts.shift()` gave `undefined`
and `endText.text` raised. -/
def advance : List Leaf → Leaf → Int → Int → Int → Option (List Leaf × Leaf × Int)
  | [], endText, available, remaining, endOffset =>
      if available < remaining then none else some ([], endText, endOffset)
  | t :: rest, endText, available, remaining, endOffset =>
      if available < remaining then
        advance rest t t.text.length (remaining - available) (remaining - available)
      else some (t :: rest, endText, endOffset)

/-- One pass of the body of `for (const token of tokens)` on the cursor
variables (the decoration pushed is read off the result by `decorationOf`). -/
def stepToken (c : Cursor) (t : Token) : Option Cursor :=
  match c.endText with
  | none => none
  | some startText =>
    let startOffset := c.endOffset
    let length : Int := consumed t
    let available : Int := (startText.text.length : Int) - startOffset
    match advance c.texts startText available length (startOffset + length) with
    | none => none
    | some (texts, endText, endOffset) =>
      some { texts := texts
             startText := some startText
             endText := some endText
             startOffset := startOffset
             endOffset := endOffset
             start := c.start + length }

/-- A point `{key, offset}` of a decoration. -/
structure Point where
  key : String
  offset : Int
  deriving DecidableEq, Repr

/-- The object `dec` pushed for a previewable token. -/
structure Decoration where
  anchor : Point
  focus : Point
  markType : String
  deriving DecidableEq, Repr

/-- The decoration pushed after the cursor has been advanced for `t`, if any:
`typeof token !== 'string' && canPreview(token)`. -/
def decorationOf (c : Cursor) (t : Token) : List Decoration :=
  match t.type?, c.startText, c.endText with
  | some ty, some s, some e =>
      if canPreview t then
        [{ anchor := ⟨s.key, c.startOffset⟩, focus := ⟨e.key, c.endOffset⟩, markType := ty }]
      else []
  | _, _, _ => []

/-- The token loop of `decorateNode`: the final cursor and the decorations
pushed, or `none` when a pass raised. -/
def walkTokens : Cursor → List Token → Option (Cursor × List Decoration)
  | c, [] => some (c, [])
  | c, t :: ts =>
      match stepToken c t with
      | none => none
      | some c1 =>
        match walkTokens c1 ts with
        | none => none
        | some (c2, ds) => some (c2, decorationOf c1 t ++ ds)

/-- A Slate node handed to the plugin: its `object` kind and its text leaves
(`getTexts()`); `node.text` is the concatenation of the leaves. -/
structure Node where
  object : String
  texts : List Leaf
  deriving DecidableEq, Repr

/-- The property `node.text`. -/
def Node.text (n : Node) : String :=
  String.join (n.texts.map Leaf.text)

/-- The plugin's `decorateNode(node, editor, next)`: `others` is what `next()`
returned (`none` for a falsy result), `disabled` is
`editor.props.markdown.disabled`. `none` is a raised `TypeError`. -/
def decorateNode (tokenize : String → List Token) (node : Node) (disabled : Bool)
    (others : Option (List Decoration)) : Option (List Decoration) :=
  let others := others.getD []
  if node.object != "block" || disabled then some others
  else
    match walkTokens (resetVars node.texts) (tokenize node.text) with
    | none => none
    | some (_, decorations) => some (others ++ decorations)

/-! ## The fence patterns `codeBegin` and `codeEnd` -/

/-- The JavaScript `LineTerminator` set, at which `^` and `$` match under the
`m` flag: LF, CR, U+2028, U+2029. -/
def isLineTerminator (c : Char) : Bool :=
  c.toNat == 0x0A || c.toNat == 0x0D || c.toNat == 0x2028 || c.toNat == 0x2029

/-- The JavaScript class `\s` (white space and line terminators). -/
def isSpace (c : Char) : Bool :=
  let n := c.toNat
  n == 0x09 || n == 0x0A || n == 0x0B || n == 0x0C || n == 0x0D || n == 0x20 ||
  n == 0xA0 || n == 0x1680 || (0x2000 ≤ n && n ≤ 0x200A) || n == 0x2028 ||
  n == 0x2029 || n == 0x202F || n == 0x205F || n == 0x3000 || n == 0xFEFF

/-- Whether `$` (flag `m`) matches in front of the given rest of the input. -/
def atLineEnd : List Char → Bool
  | [] => true
  | c :: _ => isLineTerminator c

/-- The tail `([\S]*)$` of `codeBegin` matched at the given input: the greedy
run of non-space characters (the captured group), which must reach a line end. -/
def matchLanguage (rest : List Char) : Option String :=
  if atLineEnd (rest.dropWhile fun c => !isSpace c) then
    some (String.mk (rest.takeWhile fun c => !isSpace c))
  else none

/-- The pattern `codeBegin` tried at a line start: three backticks, `[\s]?`
(first with one space character, then with none), then `([\S]*)$`. The result
is the captured group `match[1]`. -/
def matchCodeBeginAt : List Char → Option String
  | a :: b :: c :: rest =>
      if a.toNat == 0x60 && b.toNat == 0x60 && c.toNat == 0x60 then
        match rest with
        | s :: rest1 =>
            if isSpace s then (matchLanguage rest1).orElse fun _ => matchLanguage rest
            else matchLanguage rest
        | [] => matchLanguage rest
      else none
  | _ => none

/-- The pattern `codeEnd` tried at a line start: three backticks, then `$`. -/
def matchCodeEndAt : List Char → Bool
  | a :: b :: c :: rest =>
      a.toNat == 0x60 && b.toNat == 0x60 && c.toNat == 0x60 && atLineEnd rest
  | _ => false

/-- The leftmost match of `codeBegin` in the input: `^` matches at the start
of the input and after every line terminator. -/
def codeBeginScan : Bool → List Char → Option String
  | _, [] => none
  | lineStart, c :: cs =>
      ((if lineStart then matchCodeBeginAt (c :: cs) else none).orElse
        fun _ => codeBeginScan (isLineTerminator c) cs)

/-- Whether `codeEnd` matches somewhere in the input. -/
def codeEndScan : Bool → List Char → Bool
  | _, [] => false
  | lineStart, c :: cs =>
      (lineStart && matchCodeEndAt (c :: cs)) || codeEndScan (isLineTerminator c) cs

/-- The call `codeBegin.exec(text)`, reduced to its captured group `match[1]`;
`none` is the `null` of no match. -/
def codeBeginExec (text : String) : Option String :=
  codeBeginScan true text.toList

/-- The call `codeBegin.test(text)`. -/
def codeBeginTest (text : String) : Bool :=
  (codeBeginExec text).isSome

/-- The call `codeEnd.test(text)`. -/
def codeEndTest (text : String) : Bool :=
  codeEndScan true text.toList

/-! ## Editor commands and the module state of the markdown plugin -/

/-- An editor command issued by the plugin, with its arguments. `setMark` and
`deleteNode` are the plugin's own commands (see `deleteNodeCommand`). -/
inductive Cmd where
  | moveToStartOfNode (node : Leaf)
  | moveForward (n : Nat)
  | moveFocusForward (n : Nat)
  | moveAnchorForward (n : Nat)
  | delete
  | addMark (type : String)
  | setBlocks (type : String) (data : Option (List (String × String)))
  | moveAnchorToStartOfNode (node : Leaf)
  | moveFocusToEndOfNode (node : Option Leaf)
  | setMark (type : String)
  | wrapBlock (type : String) (data : Option (List (String × String)))
  | deleteNode (node : Leaf)
  deriving DecidableEq, Repr

/-- The plugin command `deleteNode(editor, node)`: the commands it issues. -/
def deleteNodeCommand (node : Leaf) : List Cmd :=
  [.moveAnchorToStartOfNode node, .moveFocusToEndOfNode (some node), .delete]

/-- The value of `codeBeginPointer` when set: `{node, language}`. -/
structure FencePointer where
  node : Leaf
  language : String
  deriving DecidableEq, Repr

/-- The module variables `codeBeginPointer`, `listStartNode`, `listEndNode`;
`none` is `undefined` or `null`. -/
structure MdState where
  codeBeginPointer : Option FencePointer
  listStartNode : Option Leaf
  listEndNode : Option Leaf
  deriving DecidableEq, Repr

/-- The state at module load: all three variables `undefined`. -/
def MdState.init : MdState := ⟨none, none, none⟩

/-- The message of the error raised by `content[0].length` on an empty array. -/
def lengthOfUndefined : String :=
  "TypeError: Cannot read property 'length' of undefined"

/-- The function `lineContentLength`; `content[0].length` raises when the
content array is empty. -/
def lineContentLength : Token → Except String Nat
  | .str s => .ok s.length
  | .flat _ _ n => .ok n
  | .nested _ (first :: _) _ => .ok first.length
  | .nested _ [] _ => .error lengthOfUndefined

/-- The function `getTitleType`. -/
def getTitleType (length : Nat) : String :=
  let type := if length > 5 then 5 else length
  "h" ++ toString type

/-- The function `markCode`: the new state and the commands issued. -/
def markCode (st : MdState) (blockNode : Node) : MdState × List Cmd :=
  match blockNode.texts with
  | [textNode] =>
      match st.codeBeginPointer, codeBeginExec textNode.text with
      | none, some language =>
          ({ st with codeBeginPointer := some ⟨textNode, language⟩ }, [])
      | some begin, _ =>
          if codeEndTest textNode.text then
            ({ st with codeBeginPointer := none },
             [ .moveAnchorToStartOfNode begin.node,
               .moveFocusToEndOfNode (some textNode),
               .setBlocks "plain" none,
               .setMark "plain",
               .wrapBlock "code" (some [("language", begin.language)]),
               .deleteNode begin.node,
               .deleteNode textNode ])
          else (st, [])
      | none, none => (st, [])
  | _ => (st, [])

/-- The variables the token walk of `convertMarkdown` updates: the module
state, the flag `foundListItem`, and the commands issued so far. -/
structure Walk where
  st : MdState
  foundListItem : Bool
  cmds : List Cmd
  deriving DecidableEq, Repr

/-- The values `for (const i of token.content)` runs through: the elements of
a content array, or the characters of a content string. -/
def contentParts : Token → List Token
  | .str _ => []
  | .flat _ c _ => c.toList.map fun ch => .str (String.singleton ch)
  | .nested _ cs _ => cs

/-- The commands issued for one part `i` of an inline token of type `type`. -/
def partCmds (type : String) (i : Token) : List Cmd :=
  if i.isString then
    [.moveFocusForward i.length, .addMark type, .moveAnchorForward i.length]
  else
    [.moveFocusForward i.length, .delete]

/-- The body of `for (const token of tokens)` in `convertMarkdown`, for a token
of the text node `node`. -/
def walkToken (node : Leaf) (w : Walk) (token : Token) : Except String Walk :=
  match token.type? with
  | none => .ok { w with cmds := w.cmds ++ [.moveForward token.length] }
  | some type =>
    if isLineMarkdown token then
      match lineContentLength token with
      | .error e => .error e
      | .ok length =>
        let cmds := w.cmds ++ [.moveFocusForward length, .delete]
        if type == "list" then
          .ok { st := { w.st with
                        listStartNode := some (w.st.listStartNode.getD node)
                        listEndNode := some node }
                foundListItem := true
                cmds := cmds ++ [.setBlocks "list-item" none] }
        else
          let type := if type == "title" then getTitleType length else type
          .ok { w with cmds := cmds ++ [.setBlocks type (some [("test", "Can I find this")])] }
    else
      .ok { w with cmds := w.cmds ++ (contentParts token).flatMap (partCmds type) }

/-- The loop over the tokens of one text node. -/
def walkNodeTokens (node : Leaf) : Walk → List Token → Except String Walk
  | w, [] => .ok w
  | w, t :: ts =>
      match walkToken node w t with
      | .error e => .error e
      | .ok w1 => walkNodeTokens node w1 ts

/-- The loop `for (let node of blockNode.getTexts())`. -/
def walkTexts (tokenize : String → List Token) : Walk → List Leaf → Except String Walk
  | w, [] => .ok w
  | w, node :: rest =>
      match walkNodeTokens node { w with cmds := w.cmds ++ [.moveToStartOfNode node] }
          (tokenize node.text) with
      | .error e => .error e
      | .ok w1 => walkTexts tokenize w1 rest

/-- The tail of `convertMarkdown`: `if (listStartNode && !foundListItem)`. The
argument of `moveFocusToEndOfNode` is the value of `listEndNode`, set or not. -/
def finishList (w : Walk) : MdState × List Cmd :=
  match w.st.listStartNode with
  | some listStart =>
      if !w.foundListItem then
        ({ w.st with listStartNode := none, listEndNode := none },
         w.cmds ++ [.moveAnchorToStartOfNode listStart,
                    .moveFocusToEndOfNode w.st.listEndNode,
                    .wrapBlock "list" none])
      else (w.st, w.cmds)
  | none => (w.st, w.cmds)

/-- The message of the error raised by `blockNode.object` on an absent node. -/
def objectOfUndefined : String :=
  "TypeError: Cannot read property 'object' of undefined"

/-- The exported `convertMarkdown({editor, node: blockNode, done})`: `disabled`
is `editor.props.markdown.disabled`, `blockNode` is `none` when the caller
passed no `node`, `done` is the truthiness of the `done` argument. The result
is the new module state and the commands issued, or the `TypeError` raised. -/
def convertMarkdown (tokenize : String → List Token) (disabled : Bool)
    (blockNode : Option Node) (done : Bool) (st : MdState) :
    Except String (MdState × List Cmd) :=
  if disabled then .ok (st, [])
  else if !done then
    match blockNode with
    | none => .error objectOfUndefined
    | some blockNode =>
      if blockNode.object != "block" then .ok (st, [])
      else
        let (st1, cmds1) := markCode st blockNode
        match walkTexts tokenize ⟨st1, false, cmds1⟩ blockNode.texts with
        | .error e => .error e
        | .ok w => .ok (finishList w)
  else
    .ok (finishList ⟨{ st with codeBeginPointer := none }, false, []⟩)

/-! ## The serializer rules of `send-message.js` -/

/-- A JavaScript value as the serializer meets it in node data and attributes;
`object` is any non-primitive value (always truthy). -/
inductive JsValue where
  | undefined
  | null
  | str (s : String)
  | num (n : Int)
  | object (description : String)
  deriving DecidableEq, Repr

/-- JavaScript truthiness. -/
def JsValue.truthy : JsValue → Bool
  | .undefined => false
  | .null => false
  | .str s => s != ""
  | .num n => n != 0
  | .object _ => true

/-- The string a template literal makes of a value. -/
def JsValue.toStr : JsValue → String
  | .undefined => "undefined"
  | .null => "null"
  | .str s => s
  | .num n => toString n
  | .object d => d

/-- The `data` of a Slate node, with `data.get(key)`. -/
abbrev Data := List (String × JsValue)

/-- The call `data.get(key)`: `undefined` for an absent key. -/
def Data.get (d : Data) (key : String) : JsValue :=
  (d.lookup key).getD .undefined

/-- A React element or child, as the `serialize` rules build them. -/
inductive Html where
  | text (s : String)
  | expr (v : JsValue)
  | element (tag : String) (attrs : List (String × JsValue)) (children : List Html)
  | fragment (children : List Html)
  deriving Repr

/-- What a rule returns: `undefined` (no match), `null` (render nothing), or
an element (or, for `deserialize`, a node). -/
inductive RuleResult (α : Type) where
  | undefined
  | null
  | value (a : α)
  deriving Repr

/-- The method `toLowerCase`, on the letters A-Z. -/
def toLowerCase (s : String) : String :=
  String.mk (s.toList.map Char.toLower)

/-- The lookup `BLOCK_TAGS[tag]`; an inherited key finds a value of
`Object.prototype`. -/
def BLOCK_TAGS (tag : String) : JsValue :=
  if tag == "blockquote" then .str "quote"
  else if tag == "p" then .str "paragraph"
  else if tag == "pre" then .str "code"
  else if inheritedKey tag then .object "[object Object]"
  else .undefined

/-- The lookup `MARK_TAGS[tag]`; an inherited key finds a value of
`Object.prototype`. -/
def MARK_TAGS (tag : String) : JsValue :=
  if tag == "em" then .str "italic"
  else if tag == "strong" then .str "bold"
  else if tag == "u" then .str "underline"
  else if inheritedKey tag then .object "[object Object]"
  else .undefined

/-- The object a `deserialize` rule returns; `className` is the `data` of a
block (`none` for a mark, which carries no data), `nodes` is the result of
`next(el.childNodes)`. -/
structure RawNode (N : Type) where
  object : String
  type : JsValue
  className : Option JsValue
  nodes : N
  deriving Repr

/-- The rule `rules[0].deserialize(el, next)`: `tagName` is `el.tagName`,
`classAttr` is `el.getAttribute('class')`, `nodes` is `next(el.childNodes)`. -/
def rules0_deserialize {N : Type} (tagName : String) (classAttr : JsValue) (nodes : N) :
    Option (RawNode N) :=
  let type := BLOCK_TAGS (toLowerCase tagName)
  if type.truthy then
    some { object := "block", type := type, className := some classAttr, nodes := nodes }
  else none

/-- The rule `rules[1].deserialize(el, next)`. -/
def rules1_deserialize {N : Type} (tagName : String) (nodes : N) : Option (RawNode N) :=
  let type := MARK_TAGS (toLowerCase tagName)
  if type.truthy then
    some { object := "mark", type := type, className := none, nodes := nodes }
  else none

/-- A Slate model object handed to a `serialize` rule: `object`, `type`, `data`. -/
structure SlateObj where
  object : String
  type : String
  data : Data
  deriving Repr

/-- An entry of the `mentions` channel: `{id, objectType}`. -/
structure Mention where
  id : JsValue
  objectType : JsValue
  deriving DecidableEq, Repr

/-- An entry of the `groupMentions` channel: `{groupType, objectType}`. -/
structure GroupMention where
  groupType : JsValue
  objectType : JsValue
  deriving DecidableEq, Repr

/-- The module variables `mentions` and `groupMentions`. -/
structure Channels where
  mentions : List Mention
  groupMentions : List GroupMention
  deriving DecidableEq, Repr

/-- The table `blocks`: the tag of the element stored under a block type. -/
def blocks (type : String) : String :=
  if type == "blockquote" then "blockquote"
  else if type == "unordered-list" then "ul"
  else if type == "ordered-list" then "ol"
  else if type == "list-item" then "li"
  else type

/-- The rule `rules[0].serialize(obj, children)`, with the channels it pushes to. -/
def rules0_serialize (obj : SlateObj) (children : List Html) (ch : Channels) :
    RuleResult Html × Channels :=
  if obj.object == "block" then
    if obj.type == "paragraph" then
      (.value (.element "div" [("className", obj.data.get "className")] children), ch)
    else if obj.type == "code" then
      let lang := if (obj.data.get "language").truthy then obj.data.get "language" else .str "none"
      (.value (.element "pre" []
        [.element "code" [("className", .str ("language-" ++ lang.toStr))] children]), ch)
    else if obj.type == "plain" then
      (.value (.fragment children), ch)
    else if obj.type == "blockquote" || obj.type == "list-item" ||
        obj.type == "unordered-list" || obj.type == "h1" || obj.type == "h2" ||
        obj.type == "h3" || obj.type == "h4" || obj.type == "h5" then
      (.value (.element (blocks obj.type) [] children), ch)
    else if obj.type == "ordered-list" then
      (.value (.element (blocks obj.type) [("start", obj.data.get "start")] children), ch)
    else if obj.type == "hr" then
      (.value (.element (blocks obj.type) [] []), ch)
    else (.null, ch)
  else if obj.object == "inline" && obj.type == "userMention" then
    let id := obj.data.get "id"
    let objectType := obj.data.get "objectType"
    if objectType = .str "groupMention" then
      (.value (.element "spark-mention"
          [("data-object-type", objectType), ("data-group-type", id)]
          [.expr (obj.data.get "mentionDisplay")]),
        { ch with groupMentions := ch.groupMentions ++ [⟨id, objectType⟩] })
    else
      (.value (.element "spark-mention"
          [("data-object-type", objectType), ("data-object-id", id)]
          [.expr (obj.data.get "mentionDisplay")]),
        { ch with mentions := ch.mentions ++ [⟨id, objectType⟩] })
  else (.undefined, ch)

/-- Truthiness of a rendered child (a string child is falsy when empty). -/
def Html.truthy : Html → Bool
  | .text s => s != ""
  | .expr v => v.truthy
  | _ => true

/-- The string a template literal makes of a rendered child. -/
def Html.toStr : Html → String
  | .text s => s
  | .expr v => v.toStr
  | _ => "[object Object]"

/-- The function `addNewLine`, on an array of rendered children. -/
def addNewLine (children : List Html) : List Html :=
  match children.getLast? with
  | some last =>
      if last.truthy then children.dropLast ++ [.text (last.toStr ++ "\n")] else children
  | none => children

/-- The rule `rules[1].serialize(obj, children)`; `convertMarkdownToHTML` is
the function of that name (it calls the external `commonmark` renderer), given
`children[0]`. -/
def rules1_serialize (convertMarkdownToHTML : Option Html → Html) (obj : SlateObj)
    (children : List Html) : RuleResult Html :=
  if obj.object == "mark" then
    if obj.type == "bold" then .value (.element "strong" [] children)
    else if obj.type == "italic" then .value (.element "em" [] children)
    else if obj.type == "underline" then .value (.element "u" [] children)
    else if obj.type == "code" then
      .value (.element "code" [("className", .str "language-none")] children)
    else if obj.type == "url" then .value (convertMarkdownToHTML children.head?)
    else if obj.type == "plain" then .value (.fragment (addNewLine children))
    else if obj.type == "clear" then .value (.fragment children)
    else if obj.type == "delete" then .value (.fragment [])
    else .null
  else .undefined

/-! ## `cleanUpContent` -/

/-- The call `s.replace(/pat/, rep)` for a literal pattern: the first
occurrence is replaced. -/
def replaceFirst (pat rep : List Char) : List Char → List Char
  | [] => []
  | c :: cs =>
      if pat.isPrefixOf (c :: cs) then rep ++ (c :: cs).drop pat.length
      else c :: replaceFirst pat rep cs

/-- The call `s.replace(/pat/g, rep)` for a literal non-empty pattern; the
first argument counts the characters of a match still to be skipped. -/
def replaceAllFrom (pat rep : List Char) : Nat → List Char → List Char
  | _, [] => []
  | skip + 1, _ :: cs => replaceAllFrom pat rep skip cs
  | 0, c :: cs =>
      if pat.isPrefixOf (c :: cs) then rep ++ replaceAllFrom pat rep (pat.length - 1) cs
      else c :: replaceAllFrom pat rep 0 cs

/-- The function `cleanUpContent`. -/
def cleanUpContent (content : String) : String :=
  let c1 := replaceFirst "\n</code>".toList "</code>".toList content.toList
  let c2 := replaceAllFrom "<code>".toList "<code class=\"language-none\">".toList 0 c1
  let c3 := replaceAllFrom "<div></div>".toList "<br>".toList 0 c2
  String.mk c3

/-! ## The command `sendMessage` -/

deriving instance DecidableEq for Except

/-- The object `message` handed to `editor.props.send`; an optional field is
`none` when the property is not set. -/
structure Message where
  displayName : String
  content : String
  mentions : Option (List Mention)
  groupMentions : Option (List GroupMention)
  deriving DecidableEq, Repr

/-- Lines 240-252 of `sendMessage`: the message built from the two strings and
the channels, and the channels afterwards. -/
def buildMessage (displayName content : String) (ch : Channels) : Message × Channels :=
  let message : Message := ⟨displayName, content, none, none⟩
  let (message, mentions) :=
    if ch.mentions.length != 0 then ({ message with mentions := some ch.mentions }, [])
    else (message, ch.mentions)
  let (message, groupMentions) :=
    if ch.groupMentions.length != 0 then
      ({ message with groupMentions := some ch.groupMentions }, [])
    else (message, ch.groupMentions)
  (message, ⟨mentions, groupMentions⟩)

/-- What `sendMessage` reads of the editor: the flag
`editor.props.markdown.disabled`, the result of `Text.serialize(editor.value)`,
the call `html.serialize(editor.value)` (it runs the rules, which push to the
channels), and the truthiness of what `editor.props.send` returns. -/
structure SendEditor where
  disabled : Bool
  plainText : String
  htmlSerialize : Channels → String × Channels
  send : Message → Bool

/-- What a completed `sendMessage` has done: the messages passed to `send`, in
order; whether `onChange({value})` was called; the channels and the markdown
module state afterwards; the editor commands `convertMarkdown` issued. -/
structure SendOutcome where
  sent : List Message
  changed : Bool
  channels : Channels
  md : MdState
  cmds : List Cmd
  deriving DecidableEq, Repr

/-- The command `sendMessage(editor)`, up to the deferred `editor.focus()`.
The call `convertMarkdown({editor})` passes neither `node` nor `done`. -/
def sendMessage (tokenize : String → List Token) (ed : SendEditor) (ch : Channels)
    (md : MdState) : Except String SendOutcome :=
  let displayName := ed.plainText
  match convertMarkdown tokenize ed.disabled none false md with
  | .error e => .error e
  | .ok (md1, cmds) =>
    let (html, ch1) := ed.htmlSerialize ch
    let content := cleanUpContent html
    let (message, ch2) := buildMessage displayName content ch1
    .ok { sent := [message]
          changed := ed.send message
          channels := ch2
          md := md1
          cmds := cmds }

/-! ## A single text run under the editor commands of the token walk -/

/-- A character of a text run with the mark types it carries. -/
structure MChar where
  ch : Char
  marks : List String
  deriving DecidableEq, Repr

/-- Modelled from the spec: the Document and Cursor/Range model of section 4.1
(the Slate editor, which is not among the repository's sources), restricted to
one text run: its marked characters, the selection as two offsets into the
run, and the type of the enclosing block. -/
structure RunEditor where
  text : List MChar
  anchor : Nat
  focus : Nat
  blockType : String
  deriving DecidableEq, Repr

/-- The mark `type` added to a character; a mark is not duplicated. -/
def MChar.addMark (type : String) (c : MChar) : MChar :=
  if type ∈ c.marks then c else { c with marks := c.marks ++ [type] }

/-- Modelled from the spec: the effect of one editor command on a text run,
following section 4.1: moving a point forward by N text units clamps at the
end; `delete` removes the content spanned by the selection; `addMark` adds the
mark over the selected range; `setBlocks` sets the block's type. After
`delete` the selection is collapsed at the place of the removed content (the
spec does not say where it goes; this is where the editor leaves it).
Commands that address other nodes or the block structure have no meaning on a
single run (`none`). -/
def RunEditor.apply (e : RunEditor) : Cmd → Option RunEditor
  | .moveForward n =>
      some { e with anchor := min (e.anchor + n) e.text.length
                    focus := min (e.focus + n) e.text.length }
  | .moveFocusForward n => some { e with focus := min (e.focus + n) e.text.length }
  | .moveAnchorForward n => some { e with anchor := min (e.anchor + n) e.text.length }
  | .delete =>
      let lo := min e.anchor e.focus
      let hi := max e.anchor e.focus
      some { e with text := e.text.take lo ++ e.text.drop hi, anchor := lo, focus := lo }
  | .addMark type =>
      let lo := min e.anchor e.focus
      let hi := max e.anchor e.focus
      some { e with text := e.text.take lo ++ ((e.text.drop lo).take (hi - lo)).map
                      (MChar.addMark type) ++ e.text.drop hi }
  | .setBlocks type _ => some { e with blockType := type }
  | _ => none

/-- Modelled from the spec: a command list applied in order to a text run. -/
def RunEditor.run : RunEditor → List Cmd → Option RunEditor
  | e, [] => some e
  | e, c :: cs =>
      match e.apply c with
      | none => none
      | some e1 => e1.run cs

/-! ## Deserialize, then serialize -/

/-- The Slate model object made of a deserialized node (its `type` must be a
string); the data of a block is `{className}`. -/
def RawNode.toSlateObj {N : Type} (r : RawNode N) : Option SlateObj :=
  match r.type with
  | .str type =>
      some ⟨r.object, type,
        match r.className with
        | some v => [("className", v)]
        | none => []⟩
  | _ => none

/-- An element deserialized by `rules[0]` and its node serialized again by
`rules[0]`, the children being rendered as `children`. -/
def roundTripBlock (tagName : String) (classAttr : JsValue) (children : List Html)
    (ch : Channels) : Option (RuleResult Html) :=
  match rules0_deserialize tagName classAttr children with
  | some raw =>
      match raw.toSlateObj with
      | some obj => some (rules0_serialize obj raw.nodes ch).1
      | none => none
  | none => none

/-- An element deserialized by `rules[1]` and its mark serialized again by
`rules[1]`. -/
def roundTripMark (convertMarkdownToHTML : Option Html → Html) (tagName : String)
    (children : List Html) : Option (RuleResult Html) :=
  match rules1_deserialize tagName children with
  | some raw =>
      match raw.toSlateObj with
      | some obj => some (rules1_serialize convertMarkdownToHTML obj raw.nodes)
      | none => none
  | none => none

/-- The escaping the React renderer applies to text. -/
def escapeHtml (s : String) : String :=
  String.join (s.toList.map fun c =>
    if c.toNat == 0x26 then "&amp;"
    else if c.toNat == 0x3C then "&lt;"
    else if c.toNat == 0x3E then "&gt;"
    else if c.toNat == 0x22 then "&quot;"
    else if c.toNat == 0x27 then "&#x27;"
    else String.singleton c)

/-- An attribute as the React renderer writes it: `className` is written as
`class`, and an attribute whose value is `null` or `undefined` is left out. -/
def renderAttr : String × JsValue → String
  | (_, .undefined) => ""
  | (_, .null) => ""
  | (k, v) => " " ++ (if k == "className" then "class" else k) ++ "=\"" ++ escapeHtml v.toStr ++ "\""

mutual
/-- The markup the external React renderer (through which `html.serialize`
makes its string) writes for an element tree; it serves to compare element
trees as HTML text. -/
def renderToStaticMarkup : Html → String
  | .text s => escapeHtml s
  | .expr .undefined => ""
  | .expr .null => ""
  | .expr v => escapeHtml v.toStr
  | .element tag attrs children =>
      if tag == "hr" || tag == "br" then
        "<" ++ tag ++ String.join (attrs.map renderAttr) ++ "/>"
      else
        "<" ++ tag ++ String.join (attrs.map renderAttr) ++ ">" ++ renderChildren children
          ++ "</" ++ tag ++ ">"
  | .fragment children => renderChildren children
/-- The markup of a list of children, one after the other. -/
def renderChildren : List Html → String
  | [] => ""
  | c :: cs => renderToStaticMarkup c ++ renderChildren cs
end

/-- The markup of a rule's result, cleaned up as `sendMessage` does; a result
that is no element renders nothing. -/
def cleanMarkup : Option (RuleResult Html) → String
  | some (.value e) => cleanUpContent (renderToStaticMarkup e)
  | _ => ""

/-! ## Quantities the statements speak of -/

/-- The total length of a list of leaves. -/
def totalLen (leaves : List Leaf) : Nat :=
  (leaves.map fun l => l.text.length).sum

/-- The sum of the lengths `decorateNode` consumes for a list of tokens. -/
def consumedSum (tokens : List Token) : Nat :=
  (tokens.map consumed).sum

/-- The cursor's end point lies at absolute position `pos` of the block's
text: the end leaf is the leaf of `leaves` right before the remaining leaves,
the total length of the leaves before it plus the end offset is `pos`, and the
end offset lies within the end leaf. -/
def CursorAt (leaves : List Leaf) (c : Cursor) (pos : Nat) : Prop :=
  ∃ pre e, leaves = pre ++ e :: c.texts ∧ c.endText = some e ∧
    (totalLen pre : Int) + c.endOffset = pos ∧ 0 ≤ c.endOffset ∧ c.endOffset ≤ e.text.length

/-- Whether a stream member is a token of type `list`. -/
def isListToken (t : Token) : Bool :=
  t.type? == some "list"

/-- Whether the token stream of a text leaf contains a `list` token. -/
def hasListToken (tokenize : String → List Token) (leaf : Leaf) : Bool :=
  (tokenize leaf.text).any isListToken

/-- A line-level token whose content is an array has a first content part (as
every token made by `Prism.tokenize` has, its content being the tokenization
of a non-empty match). -/
def lineTokenOk : Token → Bool
  | .nested type [] length => !isLineMarkdown (.nested type [] length)
  | _ => true

/-- All tokens of all text leaves of a block satisfy `lineTokenOk`. -/
def blockTokensOk (tokenize : String → List Token) (b : Node) : Bool :=
  b.texts.all fun leaf => (tokenize leaf.text).all lineTokenOk

/-- The two list-run pointers are set together: `listEndNode` is unset
whenever `listStartNode` is. -/
def PointersPaired (st : MdState) : Prop :=
  st.listStartNode = none → st.listEndNode = none

/-- The characters an inline token leaves in the run: of the stretches of text
its parts span, in order, those of the string parts, each carrying the mark
`type`; the stretches of the other parts are gone. -/
def keptSegments (type : String) : List Token → List (List MChar) → List MChar
  | p :: ps, seg :: segs =>
      (if p.isString then seg.map (MChar.addMark type) else []) ++ keptSegments type ps segs
  | _, _ => []

/-- The sum of the lengths of the string parts. -/
def keptLength : List Token → Nat
  | [] => 0
  | p :: ps => (if p.isString then p.length else 0) + keptLength ps

/-- The characters of a string as an unmarked stretch of a run. -/
def plainRun (s : String) : List MChar :=
  s.toList.map fun c => ⟨c, []⟩

/-- A tokenizer for examples: a line "- x" is a `list` token, the marker, and
a string; any other text is one string. -/
def sampleTokenize (s : String) : List Token :=
  match s.toList with
  | a :: b :: rest =>
      if a.toNat == 0x2D && b.toNat == 0x20 then
        [.flat "list" "-" 1, .str (String.mk (b :: rest))]
      else [.str s]
  | _ => [.str s]

/-- The absolute position of a point on the block's linear text axis: the
total length of the leaves before the leaf that carries the point's key, plus
the point's offset. -/
def absPos (leaves : List Leaf) (p : Point) : Int :=
  (totalLen (leaves.takeWhile fun l => l.key != p.key) : Int) + p.offset

/-- A decoration as a stretch of the text axis with its mark type: the
absolute positions of its anchor and its focus, and the mark type. -/
def span (leaves : List Leaf) (d : Decoration) : Int × Int × String :=
  (absPos leaves d.anchor, absPos leaves d.focus, d.markType)

/-- Whether a stream member is a token (not a string) whose type is bold, code
or italic. -/
def isPreviewType (t : Token) : Bool :=
  t.type? == some "bold" || t.type? == some "code" || t.type? == some "italic"

/-- The stretches of the tokens that `keep` selects, with a rolling offset: a
selected token (not a string) gives the stretch from the offset to the offset
plus its consumed length, with its type; every member of the stream, selected
or not, moves the offset on by its consumed length. -/
def spansWith (keep : Token → Bool) : Int → List Token → List (Int × Int × String)
  | _, [] => []
  | pos, t :: ts =>
      (match t.type? with
       | some ty => if keep t then [(pos, pos + consumed t, ty)] else []
       | none => []) ++ spansWith keep (pos + consumed t) ts

/-- The stretches the decorations are to cover: one per token whose type is
bold, code or italic, in token order. -/
def previewSpans (pos : Int) (tokens : List Token) : List (Int × Int × String) :=
  spansWith isPreviewType pos tokens

/-- No token carries a type that is a property name of `Object.prototype`
(the markdown grammar has no token of such a name). -/
def typesOk (tokens : List Token) : Prop :=
  ∀ t ∈ tokens, ∀ ty, t.type? = some ty → inheritedKey ty = false

/-- Whether the one string occurs in the other as a run of consecutive
characters. -/
def occursIn (pat s : String) : Prop :=
  pat.toList <:+: s.toList

/-- The second text is the first with some occurrences of `pat`, one beside the
other, each replaced by `rep`, and every other character kept in place. -/
inductive ReplacedIn (pat rep : List Char) : List Char → List Char → Prop where
  | done : ReplacedIn pat rep [] []
  | keep (c : Char) {s o : List Char} : ReplacedIn pat rep s o →
      ReplacedIn pat rep (c :: s) (c :: o)
  | swap {s o : List Char} : ReplacedIn pat rep s o →
      ReplacedIn pat rep (pat ++ s) (rep ++ o)

/-- Whether one of two texts begins with the other. -/
def compat (a b : List Char) : Bool :=
  a.isPrefixOf b || b.isPrefixOf a

/-- No non-empty tail of `q` begins with `rep` or is the beginning of `rep`. -/
def tailsSafe (rep : List Char) : List Char → Bool
  | [] => true
  | a :: q => !compat rep (a :: q) && tailsSafe rep q

/-- No non-empty tail of `rep` begins with `q` or is the beginning of `q`. -/
def insideSafe (rep q : List Char) : Bool :=
  rep.tails.all fun r => r.isEmpty || !compat r q

/-! ## The leaf cursor of `decorateNode` -/

theorem totalLen_nil : totalLen [] = 0 := rfl

theorem totalLen_cons (l : Leaf) (ls : List Leaf) :
    totalLen (l :: ls) = l.text.length + totalLen ls := by
  simp [totalLen]

theorem totalLen_append (xs ys : List Leaf) :
    totalLen (xs ++ ys) = totalLen xs + totalLen ys := by
  simp [totalLen]

theorem consumedSum_cons (t : Token) (ts : List Token) :
    consumedSum (t :: ts) = consumed t + consumedSum ts := by
  simp [consumedSum]

/-- The `while` loop ends on a leaf of the list as long as the length still to
consume fits in the leaves left: it skips whole leaves and stops at the offset
that splits the consumption at the end leaf. -/
theorem advance_fits (texts : List Leaf) :
    ∀ (e : Leaf) (available remaining : Int),
      0 ≤ available → available ≤ e.text.length → 0 ≤ remaining →
      remaining - available ≤ totalLen texts →
      ∃ skipped e1 rest eo,
        advance texts e available remaining (e.text.length - available + remaining)
          = some (rest, e1, eo) ∧
        e :: texts = skipped ++ e1 :: rest ∧
        0 ≤ eo ∧ eo ≤ e1.text.length ∧
        (totalLen skipped : Int) + eo = e.text.length - available + remaining := by
  induction texts with
  | nil =>
    intro e available remaining h0 h1 h2 h3
    have hle : ¬ available < remaining := by
      simp [totalLen] at h3; omega
    refine ⟨[], e, [], e.text.length - available + remaining,
      by simp [advance, hle], by simp, by omega, by omega, ?_⟩
    simp [totalLen]
  | cons t rest ih =>
    intro e available remaining h0 h1 h2 h3
    by_cases hlt : available < remaining
    · rw [totalLen_cons] at h3
      obtain ⟨skipped, e1, rest1, eo, hadv, hsplit, heo0, heo1, hsum⟩ :=
        ih t t.text.length (remaining - available) (by omega) (by omega) (by omega)
          (by push_cast at h3 ⊢; omega)
      have harg : (t.text.length : Int) - t.text.length + (remaining - available)
          = remaining - available := by omega
      rw [harg] at hadv
      refine ⟨e :: skipped, e1, rest1, eo, ?_, by simp [hsplit], heo0, heo1, ?_⟩
      · simp [advance, hlt, hadv]
      · rw [totalLen_cons]; push_cast; omega
    · refine ⟨[], e, t :: rest, e.text.length - available + remaining,
        by simp [advance, hlt], by simp, by omega, by omega, ?_⟩
      simp [totalLen]

theorem cursorAt_resetVars (leaves : List Leaf) (hk : leaves ≠ []) :
    CursorAt leaves (resetVars leaves) 0 := by
  cases leaves with
  | nil => exact absurd rfl hk
  | cons l ls => exact ⟨[], l, by simp [resetVars], by simp [resetVars], by simp [resetVars, totalLen]⟩

/-- One pass of the token loop from a cursor at `pos`: when the token fits in
the text, the pass returns, the start point is the old end point, and the new
end point lies at `pos + consumed t`. -/
theorem stepToken_fits (leaves : List Leaf) (c : Cursor) (pos : Nat) (t : Token)
    (hc : CursorAt leaves c pos) (hfit : pos + consumed t ≤ totalLen leaves) :
    ∃ c1, stepToken c t = some c1 ∧ c1.startText = c.endText ∧
      c1.startOffset = c.endOffset ∧ CursorAt leaves c1 (pos + consumed t) := by
  obtain ⟨pre, e, hsplit, hend, hpos, h0, h1⟩ := hc
  have htot : totalLen leaves = totalLen pre + (e.text.length + totalLen c.texts) := by
    rw [hsplit, totalLen_append, totalLen_cons]
  obtain ⟨skipped, e1, rest, eo, hadv, hsk, heo0, heo1, hsum⟩ :=
    advance_fits c.texts e (e.text.length - c.endOffset) (consumed t)
      (by omega) (by omega) (by omega) (by omega)
  have harg : (e.text.length : Int) - (e.text.length - c.endOffset) + consumed t
      = c.endOffset + consumed t := by omega
  rw [harg] at hadv hsum
  refine ⟨_, by simp [stepToken, hend, hadv]; rfl, by simp [hend], by simp, ?_⟩
  refine ⟨pre ++ skipped, e1, ?_, by simp, ?_, by simpa using heo0, by simpa using heo1⟩
  · rw [hsplit, hsk]; simp
  · simp only [totalLen_append]; push_cast; omega

theorem walkTokens_fits (leaves : List Leaf) (tokens : List Token) :
    ∀ (c : Cursor) (pos : Nat), CursorAt leaves c pos →
      pos + consumedSum tokens ≤ totalLen leaves →
      ∃ c1 ds, walkTokens c tokens = some (c1, ds) ∧
        CursorAt leaves c1 (pos + consumedSum tokens) := by
  induction tokens with
  | nil => intro c pos hc _; exact ⟨c, [], rfl, by simpa [consumedSum] using hc⟩
  | cons t ts ih =>
    intro c pos hc hfit
    rw [consumedSum_cons] at hfit
    obtain ⟨c1, hstep, _, _, hc1⟩ := stepToken_fits leaves c pos t hc (by omega)
    obtain ⟨c2, ds, hwalk, hc2⟩ := ih c1 (pos + consumed t) hc1 (by omega)
    refine ⟨c2, decorationOf c1 t ++ ds, by simp [walkTokens, hstep, hwalk], ?_⟩
    rw [consumedSum_cons, ← Nat.add_assoc]; exact hc2

theorem stepToken_congr (c : Cursor) (t u : Token) (h : consumed t = consumed u) :
    stepToken c t = stepToken c u := by
  simp only [stepToken, h]

theorem decorationOf_congr (c : Cursor) (t u : Token) (h : t.type? = u.type?) :
    decorationOf c t = decorationOf c u := by
  simp only [decorationOf, canPreview, h]

theorem consumedSum_take_le (tokens : List Token) (n : Nat) (hn : n < tokens.length) :
    consumedSum (tokens.take n) + consumed tokens[n] ≤ consumedSum tokens := by
  have h : tokens.take n ++ tokens[n] :: tokens.drop (n + 1) = tokens := by
    rw [← List.drop_eq_getElem_cons hn, List.take_append_drop]
  have h2 : consumedSum (tokens.take n ++ tokens[n] :: tokens.drop (n + 1))
      = consumedSum (tokens.take n) + (consumed tokens[n] + consumedSum (tokens.drop (n + 1))) := by
    simp only [consumedSum, List.map_append, List.sum_append, List.map_cons, List.sum_cons]
  rw [h] at h2
  omega

/-- Claim C1. For a block with at least one text leaf and tokens whose consumed
lengths fit in the leaves, the token loop of `decorateNode` returns, and for
each token the start point and the end point it computes have (total length of
the leaves before the point's leaf) + offset equal to the sum of the consumed
lengths of the preceding tokens, and that sum plus the token's own consumed
length, with each offset between 0 and the length of its leaf. For leaves
"ab", "cd" and a string of length 1, a bold token of length 2 and a string of
length 1, exactly one decoration is returned after those of `next()`, from
offset 1 of the first leaf to offset 1 of the second. -/
theorem decorateNode_points (leaves : List Leaf) (tokens : List Token)
    (hk : leaves ≠ []) (hfit : consumedSum tokens ≤ totalLen leaves) :
    (∃ c ds, walkTokens (resetVars leaves) tokens = some (c, ds)) ∧
    (∀ (n : Nat) (hn : n < tokens.length),
      ∃ p ds c preS s preE e,
        walkTokens (resetVars leaves) (tokens.take n) = some (p, ds) ∧
        stepToken p tokens[n] = some c ∧
        c.startText = some s ∧ leaves = preS ++ s :: p.texts ∧
        c.endText = some e ∧ leaves = preE ++ e :: c.texts ∧
        (totalLen preS : Int) + c.startOffset = consumedSum (tokens.take n) ∧
        (totalLen preE : Int) + c.endOffset
          = consumedSum (tokens.take n) + consumed tokens[n] ∧
        0 ≤ c.startOffset ∧ c.startOffset ≤ s.text.length ∧
        0 ≤ c.endOffset ∧ c.endOffset ≤ e.text.length) ∧
    (∀ (k1 k2 s1 s3 : String) (b : Token) (others : Option (List Decoration)),
      s1.length = 1 → s3.length = 1 → b.type? = some "bold" → consumed b = 2 →
      decorateNode (fun _ => [.str s1, b, .str s3]) ⟨"block", [⟨k1, "ab"⟩, ⟨k2, "cd"⟩]⟩
          false others
        = some (others.getD [] ++ [⟨⟨k1, 1⟩, ⟨k2, 1⟩, "bold"⟩])) := by
  refine ⟨?_, ?_, ?_⟩
  · obtain ⟨c, ds, h, _⟩ := walkTokens_fits leaves tokens _ 0
      (cursorAt_resetVars leaves hk) (by omega)
    exact ⟨c, ds, h⟩
  · intro n hn
    have hle := consumedSum_take_le tokens n hn
    obtain ⟨p, ds, hwalk, hp⟩ := walkTokens_fits leaves (tokens.take n) _ 0
      (cursorAt_resetVars leaves hk) (by omega)
    rw [Nat.zero_add] at hp
    obtain ⟨c, hstep, hst, hso, hc⟩ :=
      stepToken_fits leaves p _ tokens[n] hp (by omega)
    obtain ⟨preS, s, hsS, hsE, hsP, hs0, hs1⟩ := hp
    obtain ⟨preE, e, heS, heE, heP, he0, he1⟩ := hc
    refine ⟨p, ds, c, preS, s, preE, e, hwalk, hstep, by rw [hst, hsE], hsS, heE, heS,
      by rw [hso]; exact hsP, by rw [heP]; push_cast; rfl, by rw [hso]; exact hs0,
      by rw [hso]; exact hs1, he0, he1⟩
  · intro k1 k2 s1 s3 b others h1 h3 hb hb2
    have ha : "a".length = 1 := by decide
    have hab : "ab".length = 2 := by decide
    have hcd : "cd".length = 2 := by decide
    have e1 : consumed (.str s1) = consumed (.str "a") := by
      simp [consumed, canPreview, Token.type?, Token.length, h1, ha]
    have e2 : consumed b = consumed (.str "ab") := by
      rw [hb2]; simp [consumed, canPreview, Token.type?, Token.length, hab]
    have e3 : consumed (.str s3) = consumed (.str "a") := by
      simp [consumed, canPreview, Token.type?, Token.length, h3, ha]
    have d2 : b.type? = (Token.flat "bold" "" 0).type? := by rw [hb]; rfl
    have d1 : ∀ s : String, (Token.str s).type? = (Token.str "a").type? := fun _ => rfl
    simp only [decorateNode, walkTokens, stepToken_congr _ _ _ e1, stepToken_congr _ _ _ e2,
      stepToken_congr _ _ _ e3, decorationOf_congr _ _ _ d2, decorationOf_congr _ _ _ (d1 s1),
      decorationOf_congr _ _ _ (d1 s3)]
    simp [stepToken, resetVars, advance, decorationOf, canPreview, Token.type?, consumed,
      Token.length, ha, hab, hcd]

/-- The hypotheses of `decorateNode_points` are met by the leaves "ab", "cd"
with the tokens "a", a bold token over "bc", "d": `decorateNode` returns the
one decoration from offset 1 of the first leaf to offset 1 of the second. -/
theorem decorateNode_points_witness :
    ([⟨"a", "ab"⟩, ⟨"b", "cd"⟩] : List Leaf) ≠ [] ∧
    consumedSum [.str "a", .nested "bold" [.str "bc"] 2, .str "d"]
      ≤ totalLen [⟨"a", "ab"⟩, ⟨"b", "cd"⟩] ∧
    decorateNode (fun _ => [.str "a", .nested "bold" [.str "bc"] 2, .str "d"])
        ⟨"block", [⟨"a", "ab"⟩, ⟨"b", "cd"⟩]⟩ false none
      = some [⟨⟨"a", 1⟩, ⟨"b", 1⟩, "bold"⟩] :=
  ⟨by decide, by decide,
   (decorateNode_points [⟨"a", "ab"⟩, ⟨"b", "cd"⟩]
     [.str "a", .nested "bold" [.str "bc"] 2, .str "d"] (by decide) (by decide)).2.2
     "a" "b" "a" "d" (.nested "bold" [.str "bc"] 2) none (by decide) (by decide) rfl
     (by decide)⟩

/-! ## `sendMessage` and the mention channels -/

theorem buildMessage_fst (displayName content : String) (ch : Channels) :
    (buildMessage displayName content ch).1
      = { displayName := displayName
          content := content
          mentions := if ch.mentions = [] then none else some ch.mentions
          groupMentions := if ch.groupMentions = [] then none else some ch.groupMentions } := by
  unfold buildMessage
  cases h : ch.mentions <;> cases h2 : ch.groupMentions <;> simp

theorem buildMessage_snd (displayName content : String) (ch : Channels) :
    (buildMessage displayName content ch).2 = ⟨[], []⟩ := by
  unfold buildMessage
  cases h : ch.mentions <;> cases h2 : ch.groupMentions <;> simp

theorem sendMessage_disabled (tokenize : String → List Token) (ed : SendEditor)
    (ch : Channels) (md : MdState) (h : ed.disabled = true) :
    sendMessage tokenize ed ch md
      = .ok { sent := [(buildMessage ed.plainText (cleanUpContent (ed.htmlSerialize ch).1)
                        (ed.htmlSerialize ch).2).1]
              changed := ed.send (buildMessage ed.plainText
                (cleanUpContent (ed.htmlSerialize ch).1) (ed.htmlSerialize ch).2).1
              channels := (buildMessage ed.plainText (cleanUpContent (ed.htmlSerialize ch).1)
                        (ed.htmlSerialize ch).2).2
              md := md
              cmds := [] } := by
  simp [sendMessage, convertMarkdown, h]

/-- Claim C2, evaluated on the code. With markdown processing enabled
(`disabled` false), `sendMessage` does not run to completion: its call
`convertMarkdown({editor})` reads `blockNode.object` of an absent node and
raises, so nothing is serialized and `send` is never called. With markdown
processing disabled the same call returns normally, issuing no command, and
exactly one message is passed to `send`. -/
theorem sendMessage_enabled_raises (tokenize : String → List Token) (ed : SendEditor)
    (ch : Channels) (md : MdState) :
    convertMarkdown tokenize false none false md = .error objectOfUndefined ∧
    sendMessage tokenize { ed with disabled := false } ch md = .error objectOfUndefined ∧
    convertMarkdown tokenize true none false md = .ok (md, []) ∧
    (∃ out message, sendMessage tokenize { ed with disabled := true } ch md = .ok out ∧
      out.sent = [message] ∧ message.displayName = ed.plainText ∧
      message.content = cleanUpContent (ed.htmlSerialize ch).1) := by
  refine ⟨rfl, rfl, rfl, _, _, sendMessage_disabled tokenize _ ch md rfl, rfl, ?_, ?_⟩
  · rw [buildMessage_fst]
  · rw [buildMessage_fst]

/-- Claim C3. Serializing a mention inline appends exactly one entry at the end
of one channel and leaves the other unchanged: `{groupType: id, objectType}` to
`groupMentions` when `objectType` is "groupMention", `{id, objectType}` to
`mentions` otherwise. No call of the rule removes or reorders entries, so after
two calls each channel holds its prior content, then the first call's entries,
then the second's. -/
theorem serialize_mention_appends (data : Data) (children : List Html) (ch : Channels) :
    (rules0_serialize ⟨"inline", "userMention", data⟩ children ch).2
      = (if data.get "objectType" = .str "groupMention" then
          { mentions := ch.mentions
            groupMentions := ch.groupMentions ++ [⟨data.get "id", data.get "objectType"⟩] }
        else
          { mentions := ch.mentions ++ [⟨data.get "id", data.get "objectType"⟩]
            groupMentions := ch.groupMentions }) ∧
    (∀ (obj : SlateObj) (kids : List Html) (c : Channels),
      (rules0_serialize obj kids c).2
        = { mentions := c.mentions ++ (rules0_serialize obj kids ⟨[], []⟩).2.mentions
            groupMentions :=
              c.groupMentions ++ (rules0_serialize obj kids ⟨[], []⟩).2.groupMentions }) ∧
    (∀ (o1 o2 : SlateObj) (k1 k2 : List Html) (c : Channels),
      (rules0_serialize o2 k2 (rules0_serialize o1 k1 c).2).2
        = { mentions := c.mentions ++ (rules0_serialize o1 k1 ⟨[], []⟩).2.mentions
              ++ (rules0_serialize o2 k2 ⟨[], []⟩).2.mentions
            groupMentions :=
              c.groupMentions ++ (rules0_serialize o1 k1 ⟨[], []⟩).2.groupMentions
                ++ (rules0_serialize o2 k2 ⟨[], []⟩).2.groupMentions }) := by
  have hframe : ∀ (obj : SlateObj) (kids : List Html) (c : Channels),
      (rules0_serialize obj kids c).2
        = { mentions := c.mentions ++ (rules0_serialize obj kids ⟨[], []⟩).2.mentions
            groupMentions :=
              c.groupMentions ++ (rules0_serialize obj kids ⟨[], []⟩).2.groupMentions } := by
    intro obj kids c
    unfold rules0_serialize
    by_cases hg : obj.data.get "objectType" = .str "groupMention" <;>
      split_ifs <;> simp [hg]
  refine ⟨?_, hframe, ?_⟩
  · by_cases hg : data.get "objectType" = .str "groupMention" <;>
      simp [rules0_serialize, hg]
  · intro o1 o2 k1 k2 c
    rw [hframe o2 k2, hframe o1 k1]

/-- Claim C4. The message built by `sendMessage` has a `mentions` field exactly
when the `mentions` channel is non-empty at that moment, and then the field is
the channel's content; likewise for `groupMentions`; and both channels are
empty afterwards. Whenever `sendMessage` completes, the one message it sent is
the message so built from the channels as the serializer left them, and both
channels are empty, whatever `send` returns. -/
theorem sendMessage_drains_channels (displayName content : String) (ch : Channels) :
    ((buildMessage displayName content ch).1.mentions
      = if ch.mentions = [] then none else some ch.mentions) ∧
    ((buildMessage displayName content ch).1.groupMentions
      = if ch.groupMentions = [] then none else some ch.groupMentions) ∧
    (buildMessage displayName content ch).1.displayName = displayName ∧
    (buildMessage displayName content ch).1.content = content ∧
    (buildMessage displayName content ch).2 = ⟨[], []⟩ ∧
    (∀ (tokenize : String → List Token) (ed : SendEditor) (md : MdState) (out : SendOutcome),
      sendMessage tokenize ed ch md = .ok out →
      out.sent = [(buildMessage ed.plainText (cleanUpContent (ed.htmlSerialize ch).1)
                    (ed.htmlSerialize ch).2).1] ∧
      out.channels = ⟨[], []⟩) := by
  refine ⟨?_, ?_, ?_, ?_, buildMessage_snd _ _ _, ?_⟩
  · rw [buildMessage_fst]
  · rw [buildMessage_fst]
  · rw [buildMessage_fst]
  · rw [buildMessage_fst]
  · intro tokenize ed md out h
    unfold sendMessage at h
    cases hc : convertMarkdown tokenize ed.disabled none false md with
    | error e => simp [hc] at h
    | ok r =>
      simp only [hc] at h
      injection h with h
      subst h
      exact ⟨rfl, buildMessage_snd _ _ _⟩

/-- The hypothesis of `sendMessage_drains_channels` is met by an editor with
markdown disabled whose serializer pushes one mention: the command completes,
the message carries that mention and no `groupMentions` field, and the
channels are empty afterwards. -/
theorem sendMessage_drains_channels_witness :
    sendMessage (fun _ => [])
        ⟨true, "hi", fun c => ("<div>hi</div>",
          { c with mentions := c.mentions ++ [⟨.num 1, .str "person"⟩] }), fun _ => true⟩
        ⟨[], []⟩ MdState.init
      = .ok { sent := [⟨"hi", "<div>hi</div>", some [⟨.num 1, .str "person"⟩], none⟩]
              changed := true, channels := ⟨[], []⟩, md := MdState.init, cmds := [] } ∧
    ([(⟨"hi", "<div>hi</div>", some [⟨.num 1, .str "person"⟩], none⟩ : Message)]
        = [(buildMessage "hi" (cleanUpContent "<div>hi</div>")
            ⟨[⟨.num 1, .str "person"⟩], []⟩).1] ∧
      (⟨[], []⟩ : Channels) = ⟨[], []⟩) :=
  ⟨by decide,
   (sendMessage_drains_channels "hi" "<div>hi</div>" ⟨[], []⟩).2.2.2.2.2 (fun _ => [])
     ⟨true, "hi", fun c => ("<div>hi</div>",
       { c with mentions := c.mentions ++ [⟨.num 1, .str "person"⟩] }), fun _ => true⟩
     MdState.init
     { sent := [⟨"hi", "<div>hi</div>", some [⟨.num 1, .str "person"⟩], none⟩]
       changed := true, channels := ⟨[], []⟩, md := MdState.init, cmds := [] }
     (by decide)⟩

/-! ## Round trip through the serializer rules -/

/-- Claim C5 as stated fails: an element `<p>x</p>` is deserialized to a
paragraph block, which serializes to `<div>x</div>`; `cleanUpContent` changes
neither string, so no cleanup normalization makes them equal. -/
theorem roundTrip_p_not_identity :
    roundTripBlock "p" .null [.text "x"] ⟨[], []⟩
      = some (.value (.element "div" [("className", .null)] [.text "x"])) ∧
    cleanMarkup (roundTripBlock "p" .null [.text "x"] ⟨[], []⟩) = "<div>x</div>" ∧
    cleanUpContent (renderToStaticMarkup (.element "p" [("className", .null)] [.text "x"]))
      = "<p>x</p>" ∧
    cleanMarkup (roundTripBlock "p" .null [.text "x"] ⟨[], []⟩)
      ≠ cleanUpContent
          (renderToStaticMarkup (.element "p" [("className", .null)] [.text "x"])) := by
  refine ⟨by rfl, by decide, by decide, by decide⟩

/-- The block tag blockquote is deserialized to the type `quote`, for which
`rules[0].serialize` has no case: the node renders nothing. -/
theorem roundTripBlock_blockquote (classAttr : JsValue) (children : List Html)
    (ch : Channels) : roundTripBlock "blockquote" classAttr children ch = some .null := by
  have h : toLowerCase "blockquote" = "blockquote" := by decide
  simp [roundTripBlock, rules0_deserialize, rules0_serialize, BLOCK_TAGS, h, JsValue.truthy,
    RawNode.toSlateObj]

/-- Claim C5, amended. For the mark tags em, strong and u (in any letter case,
as `tagName` is lower-cased), deserializing an element and serializing the
mark again yields an element with the same tag around the same children. For
the block tag p the result is a `div` element carrying the source class around
the same children, and for pre it is a `pre` element holding one `code`
element of class `language-none` around the children. -/
theorem roundTrip_supported_tags (convertMarkdownToHTML : Option Html → Html)
    (tagName : String) (classAttr : JsValue) (children : List Html) (ch : Channels) :
    (toLowerCase tagName = "em" ∨ toLowerCase tagName = "strong" ∨ toLowerCase tagName = "u" →
      roundTripMark convertMarkdownToHTML tagName children
        = some (.value (.element (toLowerCase tagName) [] children))) ∧
    (toLowerCase tagName = "p" →
      roundTripBlock tagName classAttr children ch
        = some (.value (.element "div" [("className", classAttr)] children))) ∧
    (toLowerCase tagName = "pre" →
      roundTripBlock tagName classAttr children ch
        = some (.value (.element "pre" []
            [.element "code" [("className", .str "language-none")] children]))) := by
  refine ⟨?_, ?_, ?_⟩
  · rintro (h | h | h) <;>
      simp [roundTripMark, rules1_deserialize, rules1_serialize, MARK_TAGS, h, JsValue.truthy,
        RawNode.toSlateObj]
  · intro h
    simp [roundTripBlock, rules0_deserialize, rules0_serialize, BLOCK_TAGS, h, JsValue.truthy,
      RawNode.toSlateObj, Data.get, List.lookup]
  · intro h
    simp [roundTripBlock, rules0_deserialize, rules0_serialize, BLOCK_TAGS, h, JsValue.truthy,
      RawNode.toSlateObj, Data.get, List.lookup, JsValue.toStr]

/-- The hypotheses of `roundTrip_supported_tags` are met by the tag names
`EM`, `P` and `PRE` as the DOM reports them. -/
theorem roundTrip_supported_tags_witness :
    toLowerCase "EM" = "em" ∧ toLowerCase "P" = "p" ∧ toLowerCase "PRE" = "pre" ∧
    roundTripMark (fun _ => .text "") "EM" [.text "x"]
      = some (.value (.element (toLowerCase "EM") [] [.text "x"])) ∧
    roundTripBlock "P" (.str "c") [.text "x"] ⟨[], []⟩
      = some (.value (.element "div" [("className", .str "c")] [.text "x"])) ∧
    roundTripBlock "PRE" .null [.text "x"] ⟨[], []⟩
      = some (.value (.element "pre" []
          [.element "code" [("className", .str "language-none")] [.text "x"]])) :=
  ⟨by decide, by decide, by decide,
   (roundTrip_supported_tags (fun _ => .text "") "EM" .null [.text "x"] ⟨[], []⟩).1
     (Or.inl (by decide)),
   (roundTrip_supported_tags (fun _ => .text "") "P" (.str "c") [.text "x"] ⟨[], []⟩).2.1
     (by decide),
   (roundTrip_supported_tags (fun _ => .text "") "PRE" .null [.text "x"] ⟨[], []⟩).2.2
     (by decide)⟩

/-! ## The token walk of `convertMarkdown` -/

theorem walkToken_effect (node : Leaf) (w : Walk) (t : Token) (hok : lineTokenOk t = true) :
    ∃ w1 extra, walkToken node w t = .ok w1 ∧
      w1.st.codeBeginPointer = w.st.codeBeginPointer ∧
      w1.foundListItem = (w.foundListItem || isListToken t) ∧
      w1.st.listStartNode
        = w.st.listStartNode.or (if isListToken t then some node else none) ∧
      w1.st.listEndNode = (if isListToken t then some node else w.st.listEndNode) ∧
      w1.cmds = w.cmds ++ extra ∧ (∀ ty d, Cmd.wrapBlock ty d ∉ extra) ∧
      (isListToken t = true → Cmd.setBlocks "list-item" none ∈ extra) := by
  cases t with
  | str s =>
    exact ⟨_, [.moveForward s.length], rfl, by simp [isListToken, Token.type?, Token.length]⟩
  | flat ty c n =>
    by_cases hl : ty = "list"
    · subst hl
      refine ⟨_, [.moveFocusForward n, .delete, .setBlocks "list-item" none], rfl, ?_⟩
      cases h : w.st.listStartNode <;> simp [isListToken, Token.type?, h]
    · by_cases hline : isLineMarkdown (.flat ty c n) = true
      · refine ⟨_, [.moveFocusForward n, .delete,
          .setBlocks (if ty = "title" then getTitleType n else ty)
            (some [("test", "Can I find this")])],
          by
            simp [walkToken, Token.type?, hline, lineContentLength, hl]
            rfl, ?_⟩
        simp [isListToken, Token.type?, hl]
      · refine ⟨_, (contentParts (.flat ty c n)).flatMap (partCmds ty),
          by
            simp [walkToken, Token.type?, hline]
            rfl, ?_⟩
        simp [isListToken, Token.type?, hl, partCmds]
        intro ty1 d x _
        split_ifs <;> simp
  | nested ty cs n =>
    by_cases hline : isLineMarkdown (.nested ty cs n) = true
    · cases cs with
      | nil => simp [lineTokenOk, hline] at hok
      | cons first rest =>
        by_cases hl : ty = "list"
        · subst hl
          refine ⟨_, [.moveFocusForward first.length, .delete, .setBlocks "list-item" none],
            by
            simp [walkToken, Token.type?, hline, lineContentLength]
            rfl, ?_⟩
          cases h : w.st.listStartNode <;> simp [isListToken, Token.type?, h]
        · refine ⟨_, [.moveFocusForward first.length, .delete,
            .setBlocks (if ty = "title" then getTitleType first.length else ty)
              (some [("test", "Can I find this")])],
            by
            simp [walkToken, Token.type?, hline, lineContentLength, hl]
            rfl, ?_⟩
          simp [isListToken, Token.type?, hl]
    · have hl : ty ≠ "list" := by
        intro h; subst h; simp [isLineMarkdown, Token.type?] at hline
      refine ⟨_, (contentParts (.nested ty cs n)).flatMap (partCmds ty),
        by
            simp [walkToken, Token.type?, hline]
            rfl, ?_⟩
      simp [isListToken, Token.type?, hl, partCmds]
      intro ty1 d x _
      split_ifs <;> simp

theorem walkNodeTokens_effect (node : Leaf) (ts : List Token) :
    ∀ (w : Walk), ts.all lineTokenOk = true →
    ∃ w1 extra, walkNodeTokens node w ts = .ok w1 ∧
      w1.st.codeBeginPointer = w.st.codeBeginPointer ∧
      w1.foundListItem = (w.foundListItem || ts.any isListToken) ∧
      w1.st.listStartNode
        = w.st.listStartNode.or (if ts.any isListToken then some node else none) ∧
      w1.st.listEndNode = (if ts.any isListToken then some node else w.st.listEndNode) ∧
      w1.cmds = w.cmds ++ extra ∧ (∀ ty d, Cmd.wrapBlock ty d ∉ extra) ∧
      (ts.any isListToken = true → Cmd.setBlocks "list-item" none ∈ extra) := by
  induction ts with
  | nil => intro w _; exact ⟨w, [], rfl, by simp⟩
  | cons t ts ih =>
    intro w hok
    simp only [List.all_cons, Bool.and_eq_true] at hok
    obtain ⟨w1, e1, h1, hc1, hf1, hs1, he1, hm1, hw1, hl1⟩ := walkToken_effect node w t hok.1
    obtain ⟨w2, e2, h2, hc2, hf2, hs2, he2, hm2, hw2, hl2⟩ := ih w1 hok.2
    refine ⟨w2, e1 ++ e2, by simp [walkNodeTokens, h1, h2], by rw [hc2, hc1], ?_, ?_, ?_, ?_, ?_, ?_⟩
    · rw [hf2, hf1]; simp [Bool.or_assoc]
    · rw [hs2, hs1, List.any_cons]
      cases w.st.listStartNode <;> cases isListToken t <;> cases ts.any isListToken <;> simp
    · rw [he2, he1, List.any_cons]
      cases isListToken t <;> cases ts.any isListToken <;> simp
    · rw [hm2, hm1]; simp
    · intro ty d hmem
      rcases List.mem_append.1 hmem with h | h
      · exact hw1 ty d h
      · exact hw2 ty d h
    · intro hany
      simp only [List.any_cons, Bool.or_eq_true] at hany
      rcases hany with h | h
      · exact List.mem_append_left _ (hl1 h)
      · exact List.mem_append_right _ (hl2 h)

theorem walkTexts_effect (tokenize : String → List Token) (leaves : List Leaf) :
    ∀ (w : Walk), (leaves.all fun leaf => (tokenize leaf.text).all lineTokenOk) = true →
    ∃ w1 extra, walkTexts tokenize w leaves = .ok w1 ∧
      w1.st.codeBeginPointer = w.st.codeBeginPointer ∧
      w1.foundListItem = (w.foundListItem || leaves.any (hasListToken tokenize)) ∧
      w1.st.listStartNode
        = w.st.listStartNode.or (leaves.find? (hasListToken tokenize)) ∧
      w1.st.listEndNode
        = ((leaves.filter (hasListToken tokenize)).getLast?).or w.st.listEndNode ∧
      w1.cmds = w.cmds ++ extra ∧ (∀ ty d, Cmd.wrapBlock ty d ∉ extra) ∧
      (leaves.any (hasListToken tokenize) = true → Cmd.setBlocks "list-item" none ∈ extra) := by
  induction leaves with
  | nil => intro w _; exact ⟨w, [], rfl, by simp⟩
  | cons leaf rest ih =>
    intro w hok
    simp only [List.all_cons, Bool.and_eq_true] at hok
    obtain ⟨w1, e1, h1, hc1, hf1, hs1, he1, hm1, hw1, hl1⟩ :=
      walkNodeTokens_effect leaf (tokenize leaf.text)
        { w with cmds := w.cmds ++ [.moveToStartOfNode leaf] } hok.1
    obtain ⟨w2, e2, h2, hc2, hf2, hs2, he2, hm2, hw2, hl2⟩ := ih w1 hok.2
    refine ⟨w2, [.moveToStartOfNode leaf] ++ e1 ++ e2, by simp [walkTexts, h1, h2],
      by rw [hc2, hc1], ?_, ?_, ?_, ?_, ?_, ?_⟩
    · rw [hf2, hf1]; simp [Bool.or_assoc, hasListToken]
    · rw [hs2, hs1]
      by_cases hh : hasListToken tokenize leaf = true
      · have hh2 : (tokenize leaf.text).any isListToken = true := hh
        cases w.st.listStartNode <;> simp [List.find?, hh, hh2]
      · have hh2 : (tokenize leaf.text).any isListToken = false := by
          simpa [hasListToken] using hh
        simp only [Bool.not_eq_true] at hh
        cases w.st.listStartNode <;> simp [List.find?, hh, hh2]
    · rw [he2, he1]
      by_cases hh : hasListToken tokenize leaf = true
      · have hh2 : (tokenize leaf.text).any isListToken = true := hh
        simp only [List.filter_cons, hh, hh2, if_true]
        cases hr : List.filter (hasListToken tokenize) rest with
        | nil => simp
        | cons x xs =>
          rw [List.getLast?_cons_cons]
          cases hg : (x :: xs).getLast? with
          | none => simp at hg
          | some y => simp
      · have hh2 : (tokenize leaf.text).any isListToken = false := by
          simpa [hasListToken] using hh
        simp [List.filter_cons, hh, hh2]
    · rw [hm2, hm1]; simp
    · intro ty d hmem
      simp only [List.mem_append, List.mem_singleton] at hmem
      rcases hmem with (h | h) | h
      · cases h
      · exact hw1 ty d h
      · exact hw2 ty d h
    · intro hany
      simp only [List.any_cons, Bool.or_eq_true] at hany
      rcases hany with h | h
      · exact List.mem_append_left _ (List.mem_append_right _ (hl1 h))
      · exact List.mem_append_right _ (hl2 h)

theorem markCode_listPointers (st : MdState) (b : Node) :
    (markCode st b).1.listStartNode = st.listStartNode ∧
    (markCode st b).1.listEndNode = st.listEndNode ∧
    ∀ d, Cmd.wrapBlock "list" d ∉ (markCode st b).2 := by
  unfold markCode
  rcases hb : b.texts with _ | ⟨leaf, _ | ⟨l2, rest⟩⟩
  · simp
  · rcases hp : st.codeBeginPointer with _ | p <;>
      rcases hx : codeBeginExec leaf.text with _ | lang <;>
      by_cases he : codeEndTest leaf.text = true <;>
      simp [hp, hx, he]
  · simp

/-- A call of `convertMarkdown` on a block whose tokens are well formed
returns: the state and commands are those of `finishList` on a walk whose
flag and list pointers are determined by the leaves that hold a list token. -/
theorem convertMarkdown_block (tokenize : String → List Token) (st : MdState) (b : Node)
    (hb : b.object = "block") (hok : blockTokensOk tokenize b = true) :
    ∃ w pre, convertMarkdown tokenize false (some b) false st = .ok (finishList w) ∧
      w.foundListItem = b.texts.any (hasListToken tokenize) ∧
      w.st.listStartNode = st.listStartNode.or (b.texts.find? (hasListToken tokenize)) ∧
      w.st.listEndNode
        = ((b.texts.filter (hasListToken tokenize)).getLast?).or st.listEndNode ∧
      w.cmds = pre ∧ (∀ d, Cmd.wrapBlock "list" d ∉ pre) ∧
      (b.texts.any (hasListToken tokenize) = true → Cmd.setBlocks "list-item" none ∈ pre) := by
  obtain ⟨w, extra, hw, _, hf, hs, he, hm, hnw, hl⟩ :=
    walkTexts_effect tokenize b.texts ⟨(markCode st b).1, false, (markCode st b).2⟩ hok
  obtain ⟨ms, me, mw⟩ := markCode_listPointers st b
  refine ⟨w, w.cmds, ?_, by simpa using hf, by rw [hs, ms], by rw [he, me], rfl, ?_, ?_⟩
  · simp [convertMarkdown, hb, hw]
  · intro d hmem
    rw [hm] at hmem
    rcases List.mem_append.1 hmem with h | h
    · exact mw d h
    · exact hnw _ d h
  · intro hany
    rw [hm]
    exact List.mem_append_right _ (hl hany)

theorem walkToken_not_ok (node : Leaf) (w : Walk) (t : Token)
    (h : lineTokenOk t = false) : ∃ e, walkToken node w t = .error e := by
  cases t with
  | str s => simp [lineTokenOk] at h
  | flat ty c n => simp [lineTokenOk] at h
  | nested ty cs n =>
    cases cs with
    | cons first rest => simp [lineTokenOk] at h
    | nil =>
      simp [lineTokenOk] at h
      refine ⟨lengthOfUndefined, ?_⟩
      simp [walkToken, Token.type?, h, lineContentLength]

theorem walkNodeTokens_ok_tokens (node : Leaf) (ts : List Token) :
    ∀ (w w1 : Walk), walkNodeTokens node w ts = .ok w1 → ts.all lineTokenOk = true := by
  induction ts with
  | nil => intro _ _ _; rfl
  | cons t ts ih =>
    intro w w1 h
    cases hok : lineTokenOk t with
    | false =>
      obtain ⟨e, he⟩ := walkToken_not_ok node w t hok
      simp [walkNodeTokens, he] at h
    | true =>
      obtain ⟨w2, _, h2, _⟩ := walkToken_effect node w t hok
      simp only [walkNodeTokens, h2] at h
      simp [hok, ih w2 w1 h]

theorem walkTexts_ok_tokens (tokenize : String → List Token) (leaves : List Leaf) :
    ∀ (w w1 : Walk), walkTexts tokenize w leaves = .ok w1 →
      (leaves.all fun leaf => (tokenize leaf.text).all lineTokenOk) = true := by
  induction leaves with
  | nil => intro _ _ _; rfl
  | cons leaf rest ih =>
    intro w w1 h
    simp only [walkTexts] at h
    cases hn : walkNodeTokens leaf { w with cmds := w.cmds ++ [.moveToStartOfNode leaf] }
        (tokenize leaf.text) with
    | error e => simp [hn] at h
    | ok w2 =>
      simp only [hn] at h
      simp [walkNodeTokens_ok_tokens leaf _ _ _ hn, ih w2 w1 h]

theorem convertMarkdown_paired (tokenize : String → List Token) (disabled : Bool)
    (node : Option Node) (done : Bool) (st st1 : MdState) (cmds : List Cmd)
    (hp : PointersPaired st)
    (h : convertMarkdown tokenize disabled node done st = .ok (st1, cmds)) :
    PointersPaired st1 := by
  unfold convertMarkdown at h
  by_cases hd : disabled = true
  · simp [hd] at h
    rw [← h.1]; exact hp
  · simp only [hd, if_false] at h
    by_cases hdone : done = true
    · simp [hdone, finishList] at h
      cases hs : st.listStartNode with
      | none =>
        simp [hs] at h
        rw [← h.1]; intro _; exact hp hs
      | some l =>
        simp [hs] at h
        rw [← h.1]; intro _; rfl
    · simp only [hdone] at h
      cases node with
      | none => simp at h
      | some b =>
        by_cases hb : b.object = "block"
        · simp only [hb] at h
          cases hw : walkTexts tokenize ⟨(markCode st b).1, false, (markCode st b).2⟩ b.texts with
          | error e => simp [hw] at h
          | ok w =>
            have hok := walkTexts_ok_tokens tokenize b.texts _ w hw
            obtain ⟨w1, extra, hw1, _, hf, hs, he, _⟩ :=
              walkTexts_effect tokenize b.texts ⟨(markCode st b).1, false, (markCode st b).2⟩ hok
            rw [hw] at hw1
            injection hw1 with hw1
            subst hw1
            obtain ⟨ms, me, _⟩ := markCode_listPointers st b
            simp [hw] at h
            have hpw : PointersPaired w.st := by
              intro hnone
              rw [hs, ms] at hnone
              rw [he, me]
              cases hst : st.listStartNode with
              | some l => simp [hst] at hnone
              | none =>
                simp only [hst, Option.none_or] at hnone
                have hfil : b.texts.filter (hasListToken tokenize) = [] := by
                  rw [List.filter_eq_nil_iff]
                  intro a ha
                  simpa using List.find?_eq_none.1 hnone a ha
                simp [hfil, hp hst]
            have h1 : st1 = (finishList w).1 := by rw [h]
            rw [h1]
            unfold finishList
            cases hls : w.st.listStartNode with
            | none => simpa using hpw
            | some l =>
              by_cases hfound : w.foundListItem = true
              · simp [hfound]; exact hpw
              · simp [hfound]; intro _; rfl
        · simp [hb] at h
          rw [← h.1]; exact hp

/-- A call of `convertMarkdown` on a block whose tokens are well formed
returns with the fence pointer as `markCode` left it; its commands are those of
`markCode` followed by commands that wrap nothing in a code block. -/
theorem convertMarkdown_block_fence (tokenize : String → List Token) (st : MdState) (b : Node)
    (hb : b.object = "block") (hok : blockTokensOk tokenize b = true) :
    ∃ st1 rest, convertMarkdown tokenize false (some b) false st
        = .ok (st1, (markCode st b).2 ++ rest) ∧
      st1.codeBeginPointer = (markCode st b).1.codeBeginPointer ∧
      (∀ d, Cmd.wrapBlock "code" d ∉ rest) := by
  obtain ⟨w, extra, hw, hc, _, _, _, hm, hnw, _⟩ :=
    walkTexts_effect tokenize b.texts ⟨(markCode st b).1, false, (markCode st b).2⟩ hok
  have hconv : convertMarkdown tokenize false (some b) false st = .ok (finishList w) := by
    simp [convertMarkdown, hb, hw]
  rw [hconv]
  unfold finishList
  cases hls : w.st.listStartNode with
  | none =>
    refine ⟨w.st, extra, by simp [hm], hc, fun d h => hnw _ d h⟩
  | some l =>
    by_cases hfound : w.foundListItem = true
    · refine ⟨w.st, extra, by simp [hfound, hm], hc, fun d h => hnw _ d h⟩
    · refine ⟨{ w.st with listStartNode := none, listEndNode := none },
        extra ++ [.moveAnchorToStartOfNode l, .moveFocusToEndOfNode w.st.listEndNode,
        .wrapBlock "list" none], by simp [hfound, hm], hc, ?_⟩
      intro d h
      rcases List.mem_append.1 h with h | h
      · exact hnw _ d h
      · simp at h

/-! ## Code fences -/

theorem codeBeginExec_js : codeBeginExec "```js" = some "js" := by decide

theorem codeBeginExec_bare : codeBeginExec "```" = some "" := by decide

theorem codeEndTest_bare : codeEndTest "```" = true := by decide

theorem codeEndTest_let : codeEndTest "let x=1;" = false := by decide

theorem codeEndTest_code : codeEndTest "code" = false := by decide

/-- Claim C6. From an unset fence pointer, `markCode` on the single-leaf blocks
"```js", "let x=1;", "```" in turn: captures the pointer `{node, language: "js"}`
issuing no command; leaves the pointer unchanged issuing no command; then moves
the anchor to the start of the opening fence leaf and the focus to the end of
the closing fence leaf, sets blocks and mark to plain, wraps the selection in
one block of type code with `data.language` "js", deletes the opening and the
closing fence leaf, and clears the pointer. In general a set pointer is never
replaced by another one (it stays or is cleared), a pointer is captured only
from an unset pointer on a block with exactly one text leaf matching
`codeBegin`, and the list pointers are untouched. A call of `convertMarkdown`
on a block (with well-formed tokens) returns with the fence pointer as
`markCode` left it, having issued the commands of `markCode` first and no
other wrap in a code block. -/
theorem markCode_fence (k1 k2 k3 : String) (listStart listEnd : Option Leaf) :
    markCode ⟨none, listStart, listEnd⟩ ⟨"block", [⟨k1, "```js"⟩]⟩
      = (⟨some ⟨⟨k1, "```js"⟩, "js"⟩, listStart, listEnd⟩, []) ∧
    markCode ⟨some ⟨⟨k1, "```js"⟩, "js"⟩, listStart, listEnd⟩ ⟨"block", [⟨k2, "let x=1;"⟩]⟩
      = (⟨some ⟨⟨k1, "```js"⟩, "js"⟩, listStart, listEnd⟩, []) ∧
    markCode ⟨some ⟨⟨k1, "```js"⟩, "js"⟩, listStart, listEnd⟩ ⟨"block", [⟨k3, "```"⟩]⟩
      = (⟨none, listStart, listEnd⟩,
         [ .moveAnchorToStartOfNode ⟨k1, "```js"⟩,
           .moveFocusToEndOfNode (some ⟨k3, "```"⟩),
           .setBlocks "plain" none,
           .setMark "plain",
           .wrapBlock "code" (some [("language", "js")]),
           .deleteNode ⟨k1, "```js"⟩,
           .deleteNode ⟨k3, "```"⟩ ]) ∧
    (∀ (st : MdState) (b : Node),
      (∀ p, st.codeBeginPointer = some p →
        (markCode st b).1.codeBeginPointer = some p ∨
        (markCode st b).1.codeBeginPointer = none) ∧
      (∀ q, (markCode st b).1.codeBeginPointer = some q → st.codeBeginPointer ≠ some q →
        st.codeBeginPointer = none ∧ b.texts = [q.node] ∧
        codeBeginExec q.node.text = some q.language ∧ (markCode st b).2 = []) ∧
      (markCode st b).1.listStartNode = st.listStartNode ∧
      (markCode st b).1.listEndNode = st.listEndNode) ∧
    (∀ (tokenize : String → List Token) (st : MdState) (b : Node),
      b.object = "block" → blockTokensOk tokenize b = true →
      ∃ st1 rest, convertMarkdown tokenize false (some b) false st
          = .ok (st1, (markCode st b).2 ++ rest) ∧
        st1.codeBeginPointer = (markCode st b).1.codeBeginPointer ∧
        (∀ d, Cmd.wrapBlock "code" d ∉ rest)) := by
  refine ⟨?_, ?_, ?_, ?_, convertMarkdown_block_fence⟩
  · simp [markCode, codeBeginExec_js]
  · simp [markCode, codeEndTest_let]
  · simp [markCode, codeEndTest_bare]
  · intro st b
    unfold markCode
    rcases hb : b.texts with _ | ⟨leaf, _ | ⟨l2, rest⟩⟩
    · simp; exact fun p hp => Or.inl hp
    · rcases hp : st.codeBeginPointer with _ | p <;>
        rcases hx : codeBeginExec leaf.text with _ | lang <;>
        by_cases he : codeEndTest leaf.text = true <;>
        simp [hp, hx, he]
    · simp; exact fun p hp => Or.inl hp

/-- Claim C7 as stated fails: for the blocks "```", "code", "```" the command
that creates the code block on fence close carries `data.language` equal to
the empty string (the captured group), and no command with "none" is issued. -/
theorem fence_language_not_none :
    (markCode (markCode (markCode MdState.init ⟨"block", [⟨"a", "```"⟩]⟩).1
        ⟨"block", [⟨"b", "code"⟩]⟩).1 ⟨"block", [⟨"c", "```"⟩]⟩).2
      = [ .moveAnchorToStartOfNode ⟨"a", "```"⟩,
          .moveFocusToEndOfNode (some ⟨"c", "```"⟩),
          .setBlocks "plain" none,
          .setMark "plain",
          .wrapBlock "code" (some [("language", "")]),
          .deleteNode ⟨"a", "```"⟩,
          .deleteNode ⟨"c", "```"⟩ ] ∧
    Cmd.wrapBlock "code" (some [("language", "none")]) ∉
      (markCode (markCode (markCode MdState.init ⟨"block", [⟨"a", "```"⟩]⟩).1
        ⟨"block", [⟨"b", "code"⟩]⟩).1 ⟨"block", [⟨"c", "```"⟩]⟩).2 := by
  decide

/-- Claim C7, amended. For every fence whose opening line carries no language
tag, that is, every opening leaf on which `codeBegin` matches with an empty
captured group (such as "```", or "```" followed by one blank), processed from
an unset fence pointer with any list pointers: the opening block records the
leaf with the empty language and issues nothing; every block after it that is
not one leaf matching `codeEnd` leaves the state as it is and issues nothing,
so any sequence of such blocks does; and the closing block, one leaf matching
`codeEnd`, issues the fence commands with `data.language` equal to the empty
string and clears the pointer. The literal "none" is supplied by the
serializer: a code block whose `data.language` is empty or absent is rendered
as a `code` element of class `language-none` inside a `pre` element. -/
theorem fence_language_default (openLeaf closeLeaf : Leaf) (interior : List Node)
    (openObject closeObject : String) (listStart listEnd : Option Leaf)
    (children : List Html) (ch : Channels)
    (hopen : codeBeginExec openLeaf.text = some "")
    (hinterior : ∀ b ∈ interior, ∀ leaf, b.texts = [leaf] → codeEndTest leaf.text = false)
    (hclose : codeEndTest closeLeaf.text = true) :
    markCode ⟨none, listStart, listEnd⟩ ⟨openObject, [openLeaf]⟩
      = (⟨some ⟨openLeaf, ""⟩, listStart, listEnd⟩, []) ∧
    (∀ b ∈ interior, markCode ⟨some ⟨openLeaf, ""⟩, listStart, listEnd⟩ b
      = (⟨some ⟨openLeaf, ""⟩, listStart, listEnd⟩, [])) ∧
    markCode
        (interior.foldl (fun s b => (markCode s b).1)
          (markCode ⟨none, listStart, listEnd⟩ ⟨openObject, [openLeaf]⟩).1)
        ⟨closeObject, [closeLeaf]⟩
      = (⟨none, listStart, listEnd⟩,
         [ .moveAnchorToStartOfNode openLeaf,
           .moveFocusToEndOfNode (some closeLeaf),
           .setBlocks "plain" none,
           .setMark "plain",
           .wrapBlock "code" (some [("language", "")]),
           .deleteNode openLeaf,
           .deleteNode closeLeaf ]) ∧
    rules0_serialize ⟨"block", "code", [("language", .str "")]⟩ children ch
      = (.value (.element "pre" []
          [.element "code" [("className", .str "language-none")] children]), ch) ∧
    rules0_serialize ⟨"block", "code", []⟩ children ch
      = (.value (.element "pre" []
          [.element "code" [("className", .str "language-none")] children]), ch) := by
  have hfirst : markCode ⟨none, listStart, listEnd⟩ ⟨openObject, [openLeaf]⟩
      = (⟨some ⟨openLeaf, ""⟩, listStart, listEnd⟩, []) := by
    simp [markCode, hopen]
  have hstay : ∀ b : Node,
      (∀ leaf, b.texts = [leaf] → codeEndTest leaf.text = false) →
      markCode ⟨some ⟨openLeaf, ""⟩, listStart, listEnd⟩ b
        = (⟨some ⟨openLeaf, ""⟩, listStart, listEnd⟩, []) := by
    intro b hb
    unfold markCode
    split
    · rename_i textNode htexts
      simp [hb textNode htexts]
    · rfl
  have hfold : ∀ l : List Node,
      (∀ b ∈ l, ∀ leaf, b.texts = [leaf] → codeEndTest leaf.text = false) →
      l.foldl (fun s b => (markCode s b).1) ⟨some ⟨openLeaf, ""⟩, listStart, listEnd⟩
        = ⟨some ⟨openLeaf, ""⟩, listStart, listEnd⟩ := by
    intro l
    induction l with
    | nil => intro _; rfl
    | cons b l ih =>
        intro hl
        rw [List.foldl_cons, hstay b (hl b (List.mem_cons_self b l))]
        exact ih (fun c hc => hl c (List.mem_cons_of_mem b hc))
  refine ⟨hfirst, fun b hb => hstay b (hinterior b hb), ?_, ?_, ?_⟩
  · rw [hfirst, hfold interior hinterior]
    simp [markCode, hclose]
  · simp [rules0_serialize, Data.get, List.lookup, JsValue.truthy, JsValue.toStr]
  · simp [rules0_serialize, Data.get, List.lookup, JsValue.truthy, JsValue.toStr]

/-- The statement of `fence_language_default` at the opening leaf "```"
followed by one blank, the interior blocks "code" and "x = 1" and a block of
two leaves, and the closing leaf "```". -/
theorem fence_language_default_witness :
    codeBeginExec "``` " = some "" ∧ codeBeginExec "```" = some "" ∧
    codeEndTest "```" = true ∧
    markCode
        ([(⟨"block", [⟨"b", "code"⟩]⟩ : Node), ⟨"block", [⟨"c", "x = 1"⟩]⟩,
          ⟨"block", [⟨"d", "```"⟩, ⟨"e", ""⟩]⟩].foldl (fun s b => (markCode s b).1)
          (markCode ⟨none, none, none⟩ ⟨"block", [⟨"a", "``` "⟩]⟩).1)
        ⟨"block", [⟨"f", "```"⟩]⟩
      = (⟨none, none, none⟩,
         [ .moveAnchorToStartOfNode ⟨"a", "``` "⟩,
           .moveFocusToEndOfNode (some ⟨"f", "```"⟩),
           .setBlocks "plain" none,
           .setMark "plain",
           .wrapBlock "code" (some [("language", "")]),
           .deleteNode ⟨"a", "``` "⟩,
           .deleteNode ⟨"f", "```"⟩ ]) :=
  ⟨by decide, by decide, by decide,
   (fence_language_default ⟨"a", "``` "⟩ ⟨"f", "```"⟩
      [⟨"block", [⟨"b", "code"⟩]⟩, ⟨"block", [⟨"c", "x = 1"⟩]⟩,
       ⟨"block", [⟨"d", "```"⟩, ⟨"e", ""⟩]⟩]
      "block" "block" none none [] ⟨[], []⟩
      (by decide)
      (by
        intro b hb leaf hleaf
        simp only [List.mem_cons, List.mem_singleton, List.not_mem_nil, or_false] at hb
        rcases hb with rfl | rfl | rfl
        · simp only [List.cons.injEq, and_true] at hleaf
          subst hleaf
          decide
        · simp only [List.cons.injEq, and_true] at hleaf
          subst hleaf
          decide
        · simp at hleaf)
      (by decide)).2.2.1⟩

/-! ## List runs -/

/-- Claim C8. With markdown enabled and both list-run pointers unset, three
blocks that each hold a list token are processed, then a block that holds
none. Each of the first three calls returns, issues `setBlocks('list-item')`
and no wrap in a list; `listStartNode` is set by the first call (to the first
leaf of the first block that holds a list token) and kept by the next two;
`listEndNode` is set by every call to the last leaf of its block that holds a
list token. The fourth call ends with: anchor to the start of `listStartNode`,
focus to the end of `listEndNode`, one `wrapBlock('list')`, with no other wrap
in a list, and leaves both pointers unset. In general, from a state whose
list-run pointers are set together (as in the initial state and after every
call), a call on a block that holds no list token returns with both pointers
unset. -/
theorem list_run (tokenize : String → List Token) (b1 b2 b3 b4 : Node)
    (fence : Option FencePointer)
    (hb1 : b1.object = "block") (hb2 : b2.object = "block")
    (hb3 : b3.object = "block") (hb4 : b4.object = "block")
    (ho1 : blockTokensOk tokenize b1 = true) (ho2 : blockTokensOk tokenize b2 = true)
    (ho3 : blockTokensOk tokenize b3 = true) (ho4 : blockTokensOk tokenize b4 = true)
    (hl1 : b1.texts.any (hasListToken tokenize) = true)
    (hl2 : b2.texts.any (hasListToken tokenize) = true)
    (hl3 : b3.texts.any (hasListToken tokenize) = true)
    (hl4 : b4.texts.any (hasListToken tokenize) = false) :
    (∃ s1 c1 s2 c2 s3 c3 s4 c4 pre listStart,
      convertMarkdown tokenize false (some b1) false ⟨fence, none, none⟩ = .ok (s1, c1) ∧
      convertMarkdown tokenize false (some b2) false s1 = .ok (s2, c2) ∧
      convertMarkdown tokenize false (some b3) false s2 = .ok (s3, c3) ∧
      convertMarkdown tokenize false (some b4) false s3 = .ok (s4, c4) ∧
      Cmd.setBlocks "list-item" none ∈ c1 ∧ Cmd.setBlocks "list-item" none ∈ c2 ∧
      Cmd.setBlocks "list-item" none ∈ c3 ∧
      (∀ d, Cmd.wrapBlock "list" d ∉ c1) ∧ (∀ d, Cmd.wrapBlock "list" d ∉ c2) ∧
      (∀ d, Cmd.wrapBlock "list" d ∉ c3) ∧
      b1.texts.find? (hasListToken tokenize) = some listStart ∧
      s1.listStartNode = some listStart ∧ s2.listStartNode = some listStart ∧
      s3.listStartNode = some listStart ∧
      s1.listEndNode = (b1.texts.filter (hasListToken tokenize)).getLast? ∧
      s2.listEndNode = (b2.texts.filter (hasListToken tokenize)).getLast? ∧
      s3.listEndNode = (b3.texts.filter (hasListToken tokenize)).getLast? ∧
      s1.listEndNode.isSome = true ∧ s2.listEndNode.isSome = true ∧
      s3.listEndNode.isSome = true ∧
      c4 = pre ++ [.moveAnchorToStartOfNode listStart, .moveFocusToEndOfNode s3.listEndNode,
                   .wrapBlock "list" none] ∧
      (∀ d, Cmd.wrapBlock "list" d ∉ pre) ∧
      s4.listStartNode = none ∧ s4.listEndNode = none) ∧
    (∀ (st : MdState) (b : Node), b.object = "block" → blockTokensOk tokenize b = true →
      b.texts.any (hasListToken tokenize) = false → PointersPaired st →
      ∃ st1 cmds, convertMarkdown tokenize false (some b) false st = .ok (st1, cmds) ∧
        st1.listStartNode = none ∧ st1.listEndNode = none) ∧
    PointersPaired MdState.init ∧
    (∀ (disabled : Bool) (node : Option Node) (done : Bool) (st st1 : MdState)
        (cmds : List Cmd), PointersPaired st →
      convertMarkdown tokenize disabled node done st = .ok (st1, cmds) → PointersPaired st1) := by
  have hlast : ∀ (b : Node), b.texts.any (hasListToken tokenize) = true →
      ∃ l, (b.texts.filter (hasListToken tokenize)).getLast? = some l := by
    intro b hb
    cases hf : b.texts.filter (hasListToken tokenize) with
    | nil =>
      rw [List.filter_eq_nil_iff] at hf
      obtain ⟨a, ha, hta⟩ := List.any_eq_true.1 hb
      exact absurd hta (hf a ha)
    | cons x xs =>
      cases hg : (x :: xs).getLast? with
      | none => simp at hg
      | some y => exact ⟨y, rfl⟩
  have hlist : ∀ (st : MdState) (b : Node), b.object = "block" →
      blockTokensOk tokenize b = true → b.texts.any (hasListToken tokenize) = true →
      ∃ st1 cmds le, convertMarkdown tokenize false (some b) false st = .ok (st1, cmds) ∧
        Cmd.setBlocks "list-item" none ∈ cmds ∧ (∀ d, Cmd.wrapBlock "list" d ∉ cmds) ∧
        st1.listStartNode = st.listStartNode.or (b.texts.find? (hasListToken tokenize)) ∧
        st1.listEndNode = (b.texts.filter (hasListToken tokenize)).getLast? ∧
        st1.listEndNode = some le := by
    intro st b hb hok hany
    obtain ⟨w, pre, hc, hf, hs, he, hm, hnw, hl⟩ := convertMarkdown_block tokenize st b hb hok
    obtain ⟨le, hle⟩ := hlast b hany
    have hfin : finishList w = (w.st, w.cmds) := by
      unfold finishList
      cases w.st.listStartNode <;> simp [hf, hany]
    rw [hfin] at hc
    refine ⟨w.st, w.cmds, le, hc, by rw [hm]; exact hl hany, by rw [hm]; exact hnw, hs, ?_, ?_⟩
    · rw [he, hle]; rfl
    · rw [he, hle]; rfl
  have hnone : ∀ (st : MdState) (b : Node), b.object = "block" →
      blockTokensOk tokenize b = true → b.texts.any (hasListToken tokenize) = false →
      ∃ w, convertMarkdown tokenize false (some b) false st = .ok (finishList w) ∧
        w.foundListItem = false ∧ w.st.listStartNode = st.listStartNode ∧
        w.st.listEndNode = st.listEndNode ∧ (∀ d, Cmd.wrapBlock "list" d ∉ w.cmds) := by
    intro st b hb hok hany
    obtain ⟨w, pre, hc, hf, hs, he, hm, hnw, _⟩ := convertMarkdown_block tokenize st b hb hok
    have hfind : b.texts.find? (hasListToken tokenize) = none := by
      rw [List.find?_eq_none]
      intro a ha hta
      have : b.texts.any (hasListToken tokenize) = true := List.any_eq_true.2 ⟨a, ha, hta⟩
      rw [hany] at this
      cases this
    have hfil : b.texts.filter (hasListToken tokenize) = [] := by
      rw [List.filter_eq_nil_iff]
      intro a ha
      simpa using List.find?_eq_none.1 hfind a ha
    refine ⟨w, hc, by rw [hf, hany], ?_, ?_, by rw [hm]; exact hnw⟩
    · rw [hs, hfind]; simp
    · rw [he, hfil]; simp
  refine ⟨?_, ?_, ?_, ?_⟩
  · obtain ⟨s1, c1, e1, hc1, hi1, hw1, hs1, he1, hes1⟩ :=
      hlist ⟨fence, none, none⟩ b1 hb1 ho1 hl1
    obtain ⟨s2, c2, e2, hc2, hi2, hw2, hs2, he2, hes2⟩ := hlist s1 b2 hb2 ho2 hl2
    obtain ⟨s3, c3, e3, hc3, hi3, hw3, hs3, he3, hes3⟩ := hlist s2 b3 hb3 ho3 hl3
    obtain ⟨w, hc4, hf4, hs4, he4, hw4⟩ := hnone s3 b4 hb4 ho4 hl4
    simp only [Option.none_or] at hs1
    obtain ⟨l, hl⟩ : ∃ l, b1.texts.find? (hasListToken tokenize) = some l := by
      cases hfd : b1.texts.find? (hasListToken tokenize) with
      | some l => exact ⟨l, rfl⟩
      | none =>
        rw [List.find?_eq_none] at hfd
        obtain ⟨a, ha, hta⟩ := List.any_eq_true.1 hl1
        exact absurd hta (hfd a ha)
    rw [hl] at hs1
    rw [hs1] at hs2
    simp only [Option.or_some] at hs2
    rw [hs2] at hs3
    simp only [Option.or_some] at hs3
    have hfin : finishList w
        = ({ w.st with listStartNode := none, listEndNode := none },
           w.cmds ++ [.moveAnchorToStartOfNode l, .moveFocusToEndOfNode s3.listEndNode,
                      .wrapBlock "list" none]) := by
      unfold finishList
      rw [hs4, hs3, he4]
      simp [hf4]
    rw [hfin] at hc4
    exact ⟨s1, c1, s2, c2, s3, c3, _, _, w.cmds, l, hc1, hc2, hc3, hc4, hi1, hi2, hi3, hw1, hw2,
      hw3, hl, hs1, hs2, hs3, he1, he2, he3, by rw [hes1]; rfl, by rw [hes2]; rfl,
      by rw [hes3]; rfl, rfl, hw4, rfl, rfl⟩
  · intro st b hb hok hany hp
    obtain ⟨w, hc, hf, hs, he, _⟩ := hnone st b hb hok hany
    refine ⟨(finishList w).1, (finishList w).2, hc, ?_, ?_⟩
    · unfold finishList
      cases hls : w.st.listStartNode <;> simp [hf, hls]
    · unfold finishList
      cases hls : w.st.listStartNode with
      | some l => simp [hf]
      | none =>
        simp only
        rw [he]
        exact hp (by rw [← hs]; exact hls)
  · intro _; rfl
  · intro disabled node done st st1 cmds hp h
    exact convertMarkdown_paired tokenize disabled node done st st1 cmds hp h

/-- The hypotheses of `list_run` are met by three blocks "- a", "- b", "- c"
and a block "d" under `sampleTokenize`; after the fourth call both list-run
pointers are unset. -/
theorem list_run_witness :
    blockTokensOk sampleTokenize ⟨"block", [⟨"k1", "- a"⟩]⟩ = true ∧
    [(⟨"k1", "- a"⟩ : Leaf)].any (hasListToken sampleTokenize) = true ∧
    [(⟨"k4", "d"⟩ : Leaf)].any (hasListToken sampleTokenize) = false ∧
    (∃ st1 cmds, convertMarkdown sampleTokenize false (some ⟨"block", [⟨"k4", "d"⟩]⟩) false
        ⟨none, some ⟨"k1", "- a"⟩, some ⟨"k3", "- c"⟩⟩ = .ok (st1, cmds) ∧
      st1.listStartNode = none ∧ st1.listEndNode = none) :=
  ⟨by decide, by decide, by decide,
   (list_run sampleTokenize ⟨"block", [⟨"k1", "- a"⟩]⟩ ⟨"block", [⟨"k2", "- b"⟩]⟩
      ⟨"block", [⟨"k3", "- c"⟩]⟩ ⟨"block", [⟨"k4", "d"⟩]⟩ none rfl rfl rfl rfl
      (by decide) (by decide) (by decide) (by decide)
      (by decide) (by decide) (by decide) (by decide)).2.1
     ⟨none, some ⟨"k1", "- a"⟩, some ⟨"k3", "- c"⟩⟩ ⟨"block", [⟨"k4", "d"⟩]⟩ rfl
     (by decide) (by decide) (by intro h; cases h)⟩

/-! ## Headings and inline tokens -/

theorem run_append (cs ds : List Cmd) :
    ∀ (e : RunEditor), e.run (cs ++ ds) = (e.run cs).bind fun e1 => e1.run ds := by
  induction cs with
  | nil => intro e; rfl
  | cons c cs ih =>
    intro e
    simp only [List.cons_append, RunEditor.run]
    cases e.apply c with
    | none => rfl
    | some e1 => exact ih e1

theorem take_lead {α : Type} (pre rest : List α) : (pre ++ rest).take pre.length = pre := by
  simp

theorem drop_lead {α : Type} (pre rest : List α) : (pre ++ rest).drop pre.length = rest := by
  simp

theorem drop_lead_add {α : Type} (pre seg rest : List α) :
    (pre ++ (seg ++ rest)).drop (pre.length + seg.length) = rest := by
  rw [← List.append_assoc, ← List.length_append]
  exact drop_lead _ _

/-- Claim C9. For a marker length `n >= 1`, `getTitleType n` is "h" followed by
`min n 5`, hence one of h1..h5, and a 7-character marker gives h5. For a
`title` token whose first content part has length `n`, the token walk issues
`moveFocusForward(n)`, `delete()`, `setBlocks` with type `getTitleType n`; on a
text run with the selection collapsed at `c` and at least `n` characters after
it, these remove exactly the `n` characters at `c`, leave the selection
collapsed at `c`, and set the block's type to `getTitleType n`. -/
theorem title_token (n : Nat) (hn : 1 ≤ n) :
    getTitleType n = "h" ++ toString (min n 5) ∧
    getTitleType n ∈ ["h1", "h2", "h3", "h4", "h5"] ∧
    getTitleType 7 = "h5" ∧
    (∀ (node : Leaf) (w : Walk) (first : Token) (rest : List Token) (len : Nat),
      first.length = n →
      walkToken node w (.nested "title" (first :: rest) len)
        = .ok { w with cmds := w.cmds ++
            [.moveFocusForward n, .delete,
             .setBlocks (getTitleType n) (some [("test", "Can I find this")])] }) ∧
    (∀ (pre marker post : List MChar) (blockType : String) (data : Option (List (String × String))),
      marker.length = n →
      RunEditor.run ⟨pre ++ (marker ++ post), pre.length, pre.length, blockType⟩
          [.moveFocusForward n, .delete, .setBlocks (getTitleType n) data]
        = some ⟨pre ++ post, pre.length, pre.length, getTitleType n⟩) := by
  have hmin : (if n > 5 then 5 else n) = min n 5 := by
    split_ifs <;> omega
  have hty : getTitleType n = "h" ++ toString (min n 5) := by
    simp only [getTitleType, hmin]
  refine ⟨hty, ?_, by decide, ?_, ?_⟩
  · rw [hty]
    have h5 : min n 5 = 1 ∨ min n 5 = 2 ∨ min n 5 = 3 ∨ min n 5 = 4 ∨ min n 5 = 5 := by omega
    rcases h5 with h | h | h | h | h <;> rw [h] <;> decide
  · intro node w first rest len hfirst
    simp [walkToken, Token.type?, isLineMarkdown, lineContentLength, hfirst]
  · intro pre marker post blockType data hm
    subst hm
    simp only [RunEditor.run, RunEditor.apply]
    have hf : min (pre.length + marker.length) (pre ++ (marker ++ post)).length
        = pre.length + marker.length := by
      simp only [List.length_append]; omega
    simp only [hf, Nat.le_add_right, min_eq_left, max_eq_right, take_lead, drop_lead_add]

/-- The hypothesis of `title_token` is met by a 7-character marker: the walk
over a `title` token whose marker is "#######" issues the deletion of 7
characters and sets the block type h5. -/
theorem title_token_witness :
    1 ≤ 7 ∧
    walkToken ⟨"k", "####### T"⟩ ⟨MdState.init, false, []⟩
        (.nested "title" [.flat "punctuation" "#######" 7, .str " T"] 9)
      = .ok ⟨MdState.init, false,
          [.moveFocusForward 7, .delete, .setBlocks "h5" (some [("test", "Can I find this")])]⟩ :=
  ⟨by decide,
   (title_token 7 (by decide)).2.2.2.1 ⟨"k", "####### T"⟩ ⟨MdState.init, false, []⟩
     (.flat "punctuation" "#######" 7) [.str " T"] 9 rfl⟩

theorem run_part_string (type : String) (p : Token) (seg pre rest : List MChar)
    (blockType : String) (hs : p.isString = true) (hlen : seg.length = p.length) :
    RunEditor.run ⟨pre ++ (seg ++ rest), pre.length, pre.length, blockType⟩ (partCmds type p)
      = some ⟨(pre ++ seg.map (MChar.addMark type)) ++ rest,
          (pre ++ seg.map (MChar.addMark type)).length,
          (pre ++ seg.map (MChar.addMark type)).length, blockType⟩ := by
  have hf : min (pre.length + seg.length) (pre ++ (seg ++ rest)).length
      = pre.length + seg.length := by
    simp only [List.length_append]; omega
  have hlen2 : (pre ++ (List.map (MChar.addMark type) seg ++ rest)).length
      = (pre ++ (seg ++ rest)).length := by
    simp
  have ht : ((pre ++ (seg ++ rest)).drop pre.length).take (pre.length + seg.length - pre.length)
      = seg := by
    rw [drop_lead, Nat.add_sub_cancel_left]
    exact take_lead seg rest
  simp only [partCmds, hs, if_true, RunEditor.run, RunEditor.apply, ← hlen, hf,
    Nat.le_add_right, min_eq_left, max_eq_right, take_lead, drop_lead_add, ht]
  simp only [List.append_assoc, hlen2, hf, List.length_append, List.length_map]
  rw [min_eq_left (by omega)]

theorem run_part_token (type : String) (p : Token) (seg pre rest : List MChar)
    (blockType : String) (hs : p.isString = false) (hlen : seg.length = p.length) :
    RunEditor.run ⟨pre ++ (seg ++ rest), pre.length, pre.length, blockType⟩ (partCmds type p)
      = some ⟨pre ++ rest, pre.length, pre.length, blockType⟩ := by
  have hf : min (pre.length + seg.length) (pre ++ (seg ++ rest)).length
      = pre.length + seg.length := by
    simp only [List.length_append]; omega
  simp [partCmds, hs, RunEditor.run, RunEditor.apply, ← hlen, hf, drop_lead_add]

theorem run_parts (type : String) (parts : List Token) :
    ∀ (segs : List (List MChar)) (pre post : List MChar) (blockType : String),
      List.Forall₂ (fun p seg => seg.length = p.length) parts segs →
      RunEditor.run ⟨pre ++ (segs.flatten ++ post), pre.length, pre.length, blockType⟩
          (parts.flatMap (partCmds type))
        = some ⟨pre ++ (keptSegments type parts segs ++ post),
            pre.length + keptLength parts, pre.length + keptLength parts, blockType⟩ := by
  induction parts with
  | nil =>
    intro segs pre post blockType h
    cases h
    simp [RunEditor.run, keptSegments, keptLength]
  | cons p ps ih =>
    intro segs pre post blockType h
    cases h with
    | cons hlen hrest =>
      rename_i seg segs
      simp only [List.flatMap_cons, List.flatten_cons, List.append_assoc, run_append]
      cases hs : p.isString with
      | true =>
        rw [run_part_string type p seg pre _ blockType hs hlen]
        simp only [Option.some_bind]
        rw [ih segs _ post blockType hrest]
        simp [keptSegments, keptLength, hs, hlen, Nat.add_assoc]
      | false =>
        rw [run_part_token type p seg pre _ blockType hs hlen]
        simp only [Option.some_bind]
        rw [ih segs pre post blockType hrest]
        simp [keptSegments, keptLength, hs]

/-- Claim C10 as stated fails. The leaf "# T" and, on a second line, "**b**"
has the token stream: a title token (the marker "#", then " T"), the string of
the line end, a bold token (parts "**", "b", "**"). The walk deletes only the
marker of the title token and moves over the line end by one, so the bold
token is processed with the selection collapsed at offset 1 of the run " T",
line end, "**b**": two characters before the text of the token. Its commands
remove "T" with the line end and "*b", and mark an asterisk: the run is left
as a blank and three asterisks, the first of them bold. The run is not the
original with the characters of the two "**" parts removed and "b" kept and
marked. -/
theorem inline_token_after_title :
    walkNodeTokens ⟨"k", "# T\n**b**"⟩ ⟨MdState.init, false, []⟩
        [.nested "title" [.flat "punctuation" "#" 1, .str " T"] 3, .str "\n"]
      = .ok ⟨MdState.init, false,
          [.moveFocusForward 1, .delete,
           .setBlocks "h1" (some [("test", "Can I find this")]), .moveForward 1]⟩ ∧
    RunEditor.run ⟨plainRun "# T\n**b**", 0, 0, "paragraph"⟩
        [.moveFocusForward 1, .delete,
         .setBlocks "h1" (some [("test", "Can I find this")]), .moveForward 1]
      = some ⟨plainRun " T\n**b**", 1, 1, "h1"⟩ ∧
    walkToken ⟨"k", "# T\n**b**"⟩ ⟨MdState.init, false, []⟩
        (.nested "bold" [.flat "punctuation" "**" 2, .str "b", .flat "punctuation" "**" 2] 5)
      = .ok ⟨MdState.init, false,
          [.moveFocusForward 2, .delete,
           .moveFocusForward 1, .addMark "bold", .moveAnchorForward 1,
           .moveFocusForward 2, .delete]⟩ ∧
    RunEditor.run ⟨plainRun " T\n**b**", 1, 1, "h1"⟩
        [.moveFocusForward 2, .delete,
         .moveFocusForward 1, .addMark "bold", .moveAnchorForward 1,
         .moveFocusForward 2, .delete]
      = some ⟨plainRun " " ++ ((plainRun "*").map (MChar.addMark "bold") ++ plainRun "**"),
          2, 2, "h1"⟩ ∧
    plainRun " " ++ ((plainRun "*").map (MChar.addMark "bold") ++ plainRun "**")
      ≠ plainRun " T\n" ++ (plainRun "b").map (MChar.addMark "bold") := by
  decide

/-- Claim C10, amended. For a token `t` that is not line-level, with content
parts p1..pn, the token walk issues for each part its own commands: for a
string part `moveFocusForward`, `addMark(type)`, `moveAnchorForward` over that
part's length, for another part `moveFocusForward`, `delete`. On a text run in
which the text of the token begins at the collapsed selection (the parts span
the stretches `segs` right after it, each stretch as long as its part), the
run afterwards holds the text before, the stretches of the string parts in
order, each character carrying the mark `type` in addition to its marks, and
the text after, both unchanged; the stretches of the other parts are removed;
and the selection is collapsed at the old offset plus the sum of the string
parts' lengths. -/
theorem inline_token (node : Leaf) (w : Walk) (t : Token) (type : String)
    (segs : List (List MChar)) (pre post : List MChar) (blockType : String)
    (hty : t.type? = some type) (hline : isLineMarkdown t = false)
    (hseg : List.Forall₂ (fun p seg => seg.length = p.length) (contentParts t) segs) :
    walkToken node w t
      = .ok { w with cmds := w.cmds ++ (contentParts t).flatMap (partCmds type) } ∧
    RunEditor.run ⟨pre ++ (segs.flatten ++ post), pre.length, pre.length, blockType⟩
        ((contentParts t).flatMap (partCmds type))
      = some ⟨pre ++ (keptSegments type (contentParts t) segs ++ post),
          pre.length + keptLength (contentParts t),
          pre.length + keptLength (contentParts t), blockType⟩ ∧
    (keptSegments type (contentParts t) segs).length = keptLength (contentParts t) ∧
    (∀ c : MChar, (c.addMark type).ch = c.ch ∧
      ∀ m, m ∈ (c.addMark type).marks ↔ (m = type ∨ m ∈ c.marks)) := by
  refine ⟨?_, run_parts type (contentParts t) segs pre post blockType hseg, ?_, ?_⟩
  · simp [walkToken, hty, hline]
  · generalize contentParts t = parts at hseg
    induction hseg with
    | nil => rfl
    | cons hlen _ ih =>
      rename_i p seg ps segs1 _
      cases hs : p.isString <;> simp [keptSegments, keptLength, hs, ih, hlen]
  · intro c
    unfold MChar.addMark
    by_cases hm : type ∈ c.marks
    · simp only [hm, if_true, true_and]
      intro m
      constructor
      · exact Or.inr
      · rintro (h | h)
        · rw [h]; exact hm
        · exact h
    · simp only [hm, if_false, true_and, List.mem_append, List.mem_singleton]
      intro m
      constructor
      · rintro (h | h)
        · exact Or.inr h
        · exact Or.inl h
      · rintro (h | h)
        · exact Or.inr h
        · exact Or.inl h

/-- The hypotheses of `inline_token` are met by a `bold` token with parts
"**", "hi", "**" in the run "a**hi**b" with the selection after "a": the run
becomes "ahib" with "hi" marked bold and the selection collapsed at offset 3. -/
theorem inline_token_witness :
    RunEditor.run ⟨plainRun "a" ++ ((plainRun "**" ++ (plainRun "hi" ++ plainRun "**"))
        ++ plainRun "b"), 1, 1, "paragraph"⟩
      ((contentParts (.nested "bold"
        [.flat "punctuation" "**" 2, .str "hi", .flat "punctuation" "**" 2] 6)).flatMap
          (partCmds "bold"))
    = some ⟨[⟨'a', []⟩, ⟨'h', ["bold"]⟩, ⟨'i', ["bold"]⟩, ⟨'b', []⟩], 3, 3, "paragraph"⟩ :=
  (inline_token ⟨"k", "a**hi**b"⟩ ⟨MdState.init, false, []⟩
    (.nested "bold" [.flat "punctuation" "**" 2, .str "hi", .flat "punctuation" "**" 2] 6)
    "bold" [plainRun "**", plainRun "hi", plainRun "**"] (plainRun "a") (plainRun "b")
    "paragraph" rfl rfl
    (.cons (by decide) (.cons (by decide) (.cons (by decide) .nil)))).2.1

/-! ## The decorations of `decorateNode` -/

theorem absPos_split (leaves pre rest : List Leaf) (s : Leaf) (offset : Int)
    (hkeys : (leaves.map Leaf.key).Nodup) (hsplit : leaves = pre ++ s :: rest) :
    absPos leaves ⟨s.key, offset⟩ = (totalLen pre : Int) + offset := by
  subst hsplit
  have hpre : ∀ l ∈ pre, (l.key != s.key) = true := by
    intro l hl
    simp only [List.map_append, List.map_cons] at hkeys
    have hd := (List.nodup_append.1 hkeys).2.2
    simp only [bne_iff_ne, ne_eq]
    intro heq
    exact hd (List.mem_map_of_mem Leaf.key hl) (by rw [heq]; exact List.mem_cons_self _ _)
  have htw : (pre ++ s :: rest).takeWhile (fun l => l.key != s.key) = pre := by
    rw [List.takeWhile_append_of_pos hpre]
    simp [List.takeWhile]
  simp only [absPos, htw]

theorem canPreview_of_isPreviewType (t : Token) (h : isPreviewType t = true) :
    canPreview t = true := by
  cases t <;> simp_all [isPreviewType, canPreview, Token.type?]

theorem isPreviewType_of_canPreview (t : Token) (ty : String) (hty : t.type? = some ty)
    (hin : inheritedKey ty = false) (h : canPreview t = true) : isPreviewType t = true := by
  simp only [canPreview, hty, hin, Bool.or_false] at h
  simp only [isPreviewType, hty]
  simpa using h

theorem walkTokens_spans (leaves : List Leaf) (hkeys : (leaves.map Leaf.key).Nodup)
    (tokens : List Token) :
    ∀ (c : Cursor) (pos : Nat), CursorAt leaves c pos →
      pos + consumedSum tokens ≤ totalLen leaves →
      ∃ c1 ds, walkTokens c tokens = some (c1, ds) ∧
        ds.map (span leaves) = spansWith canPreview pos tokens := by
  induction tokens with
  | nil => intro c pos _ _; exact ⟨c, [], rfl, rfl⟩
  | cons t ts ih =>
    intro c pos hc hfit
    rw [consumedSum_cons] at hfit
    obtain ⟨c1, hstep, hst, hso, hc1⟩ := stepToken_fits leaves c pos t hc (by omega)
    obtain ⟨c2, ds, hwalk, hds⟩ := ih c1 (pos + consumed t) hc1 (by omega)
    refine ⟨c2, decorationOf c1 t ++ ds, by simp [walkTokens, hstep, hwalk], ?_⟩
    obtain ⟨preS, s, hsS, hsE, hsP, _, _⟩ := hc
    obtain ⟨preE, e, heS, heE, heP, _, _⟩ := hc1
    rw [List.map_append, hds, spansWith]
    push_cast
    congr 1
    cases hty1 : t.type? with
    | none => simp [decorationOf, hty1]
    | some ty =>
      by_cases hcp : canPreview t = true
      · simp only [decorationOf, hty1, hst, hsE, heE, hcp, if_true, List.map_cons,
          List.map_nil, span, hso]
        rw [absPos_split leaves preS c.texts s c.endOffset hkeys hsS,
          absPos_split leaves preE c1.texts e c1.endOffset hkeys heS, hsP, heP]
        push_cast
        rfl
      · simp [decorationOf, hty1, hst, hsE, heE, hcp]

theorem spansWith_typesOk (tokens : List Token) :
    ∀ (pos : Int), typesOk tokens →
      spansWith canPreview pos tokens = previewSpans pos tokens := by
  induction tokens with
  | nil => intro _ _; rfl
  | cons t ts ih =>
    intro pos hty
    simp only [previewSpans, spansWith]
    rw [ih (pos + consumed t) (fun u hu => hty u (List.mem_cons_of_mem _ hu)), previewSpans]
    congr 1
    cases hty1 : t.type? with
    | none => rfl
    | some ty =>
      have hin := hty t (List.mem_cons_self _ _) ty hty1
      by_cases hp : isPreviewType t = true
      · simp [canPreview_of_isPreviewType t hp, hp]
      · have hcp : canPreview t = false := by
          cases hcp : canPreview t with
          | false => rfl
          | true => exact absurd (isPreviewType_of_canPreview t ty hty1 hin hcp) hp
        simp [hcp, hp]

theorem spansWith_bounds (keep : Token → Bool) (tokens : List Token) :
    ∀ (pos : Int), ∀ x ∈ spansWith keep pos tokens,
      pos ≤ x.1 ∧ x.1 ≤ x.2.1 ∧ x.2.1 ≤ pos + consumedSum tokens := by
  induction tokens with
  | nil => intro pos x hx; simp [spansWith] at hx
  | cons t ts ih =>
    intro pos x hx
    rw [consumedSum_cons]
    simp only [spansWith, List.mem_append] at hx
    rcases hx with hx | hx
    · cases hty1 : t.type? with
      | none => simp [hty1] at hx
      | some ty =>
        by_cases hk : keep t = true
        · simp only [hty1, hk, if_true, List.mem_singleton] at hx
          subst hx
          simp only
          push_cast
          omega
        · simp [hty1, hk] at hx
    · have h := ih (pos + consumed t) x hx
      push_cast
      omega

theorem spansWith_pairwise (keep : Token → Bool) (tokens : List Token) :
    ∀ (pos : Int), (spansWith keep pos tokens).Pairwise fun x y => x.2.1 ≤ y.1 := by
  induction tokens with
  | nil => intro pos; simp [spansWith]
  | cons t ts ih =>
    intro pos
    simp only [spansWith]
    rw [List.pairwise_append]
    refine ⟨?_, ih _, ?_⟩
    · cases t.type? with
      | none => simp
      | some ty => by_cases hk : keep t = true <;> simp [hk]
    · intro x hx y hy
      have hy2 := (spansWith_bounds keep ts (pos + consumed t) y hy).1
      cases hty1 : t.type? with
      | none => simp [hty1] at hx
      | some ty =>
        by_cases hk : keep t = true
        · simp only [hty1, hk, if_true, List.mem_singleton] at hx
          subst hx
          exact hy2
        · simp [hty1, hk] at hx

theorem previewSpans_types (tokens : List Token) :
    ∀ (pos : Int), (previewSpans pos tokens).map (fun x => x.2.2)
      = (tokens.filter isPreviewType).filterMap Token.type? := by
  induction tokens with
  | nil => intro _; rfl
  | cons t ts ih =>
    intro pos
    have h := ih (pos + consumed t)
    simp only [previewSpans] at h
    simp only [previewSpans, spansWith, List.map_append, h, List.filter_cons]
    cases hty1 : t.type? with
    | none =>
      have hp : isPreviewType t = false := by simp [isPreviewType, hty1]
      simp [hp]
    | some ty =>
      by_cases hp : isPreviewType t = true
      · simp [hp, hty1]
      · simp [hp]

theorem decorateNode_block (tokenize : String → List Token) (node : Node)
    (others : Option (List Decoration)) (hb : node.object = "block")
    (hk : node.texts ≠ []) (hkeys : (node.texts.map Leaf.key).Nodup)
    (hfit : consumedSum (tokenize node.text) ≤ totalLen node.texts) :
    ∃ ds, decorateNode tokenize node false others = some (others.getD [] ++ ds) ∧
      ds.map (span node.texts) = spansWith canPreview 0 (tokenize node.text) := by
  obtain ⟨c, ds, hwalk, hds⟩ := walkTokens_spans node.texts hkeys (tokenize node.text)
    (resetVars node.texts) 0 (cursorAt_resetVars node.texts hk) (by omega)
  exact ⟨ds, by simp [decorateNode, hb, hwalk], by simpa using hds⟩

theorem walkTokens_types (leaves : List Leaf) (tokens : List Token) :
    ∀ (c : Cursor) (pos : Nat), CursorAt leaves c pos →
      pos + consumedSum tokens ≤ totalLen leaves →
      ∃ c1 ds, walkTokens c tokens = some (c1, ds) ∧
        ds.map Decoration.markType = (tokens.filter canPreview).filterMap Token.type? := by
  induction tokens with
  | nil => intro c pos _ _; exact ⟨c, [], rfl, rfl⟩
  | cons t ts ih =>
    intro c pos hc hfit
    rw [consumedSum_cons] at hfit
    obtain ⟨c1, hstep, hst, _, hc1⟩ := stepToken_fits leaves c pos t hc (by omega)
    obtain ⟨c2, ds, hwalk, hds⟩ := ih c1 (pos + consumed t) hc1 (by omega)
    refine ⟨c2, decorationOf c1 t ++ ds, by simp [walkTokens, hstep, hwalk], ?_⟩
    obtain ⟨_, s, _, hsE, _, _, _⟩ := hc
    obtain ⟨_, e, _, heE, _, _, _⟩ := hc1
    rw [List.map_append, hds, List.filter_cons]
    cases hty1 : t.type? with
    | none =>
      have hcp : canPreview t = false := by simp [canPreview, hty1]
      simp [decorationOf, hty1, hcp]
    | some ty =>
      by_cases hcp : canPreview t = true
      · simp [decorationOf, hty1, hst, hsE, heE, hcp]
      · simp [decorationOf, hty1, hst, hsE, heE, hcp]

theorem filter_canPreview_typesOk (tokens : List Token) (hty : typesOk tokens) :
    tokens.filter canPreview = tokens.filter isPreviewType := by
  apply List.filter_congr
  intro t ht
  cases hty1 : t.type? with
  | none => simp [canPreview, isPreviewType, hty1]
  | some ty =>
    have hin := hty t ht ty hty1
    by_cases hp : isPreviewType t = true
    · rw [canPreview_of_isPreviewType t hp, hp]
    · cases hcp : canPreview t with
      | false => simp only [Bool.not_eq_true] at hp; rw [hp]
      | true => exact absurd (isPreviewType_of_canPreview t ty hty1 hin hcp) hp

theorem walkTokens_no_leaf (tokens : List Token) (c : Cursor) (ds : List Decoration)
    (h : walkTokens (resetVars []) tokens = some (c, ds)) : ds = [] := by
  cases tokens with
  | nil =>
    simp only [walkTokens, Option.some.injEq, Prod.mk.injEq] at h
    exact h.2.symm
  | cons t ts => simp [walkTokens, stepToken, resetVars] at h

theorem filterMap_type_isPreviewType (tokens : List Token) :
    ((tokens.filter isPreviewType).filterMap Token.type?).length
      = (tokens.filter isPreviewType).length := by
  induction tokens with
  | nil => rfl
  | cons t ts ih =>
    rw [List.filter_cons]
    by_cases hp : isPreviewType t = true
    · rw [if_pos hp]
      cases hty : t.type? with
      | none => simp [isPreviewType, hty] at hp
      | some ty => simp [List.filterMap_cons, hty, ih]
    · rw [if_neg hp]
      exact ih

/-- Claim C11. For a block node (markdown enabled) with at least one text leaf
and a token stream as the markdown grammar gives it over the block's text (the
consumed lengths fit in the text, and no token type is a property name of
`Object.prototype`), `decorateNode` returns the decorations of `next()`
followed by exactly one decoration per token (not a string) whose type is
bold, code or italic, in token order, each with the mark type of its token;
strings and tokens of any other type give no decoration. Every member of the
stream, decorated or not, advances the later start points by its consumed
length: read through the (distinct) leaf keys, each decoration is anchored at
the sum of the consumed lengths of all stream members before its token and has
its focus that much plus its token's consumed length further. -/
theorem decorateNode_previewable (tokenize : String → List Token) (node : Node)
    (others : Option (List Decoration)) (hb : node.object = "block")
    (hk : node.texts ≠ [])
    (hfit : consumedSum (tokenize node.text) ≤ totalLen node.texts)
    (htypes : typesOk (tokenize node.text)) :
    ∃ ds, decorateNode tokenize node false others = some (others.getD [] ++ ds) ∧
      ds.map Decoration.markType
        = ((tokenize node.text).filter isPreviewType).filterMap Token.type? ∧
      ds.length = ((tokenize node.text).filter isPreviewType).length ∧
      (∀ t : Token, isPreviewType t = true ↔
        ∃ ty, t.type? = some ty ∧ (ty = "bold" ∨ ty = "code" ∨ ty = "italic")) ∧
      ((node.texts.map Leaf.key).Nodup →
        ds.map (span node.texts) = previewSpans 0 (tokenize node.text)) := by
  obtain ⟨c, ds, hwalk, hmarks⟩ := walkTokens_types node.texts (tokenize node.text)
    (resetVars node.texts) 0 (cursorAt_resetVars node.texts hk) (by omega)
  rw [filter_canPreview_typesOk _ htypes] at hmarks
  refine ⟨ds, by simp [decorateNode, hb, hwalk], hmarks, ?_, ?_, ?_⟩
  · have hlen := congrArg List.length hmarks
    rw [List.length_map, filterMap_type_isPreviewType] at hlen
    exact hlen
  · intro t
    cases t <;> simp [isPreviewType, Token.type?, or_assoc]
  · intro hkeys
    obtain ⟨c2, ds2, hwalk2, hds⟩ := walkTokens_spans node.texts hkeys (tokenize node.text)
      (resetVars node.texts) 0 (cursorAt_resetVars node.texts hk) (by omega)
    rw [hwalk] at hwalk2
    simp only [Option.some.injEq, Prod.mk.injEq] at hwalk2
    rw [← hwalk2.2] at hds
    have hds0 : ds.map (span node.texts) = spansWith canPreview 0 (tokenize node.text) := by
      simpa using hds
    rw [hds0, spansWith_typesOk _ 0 htypes]

/-- The hypotheses of `decorateNode_previewable` are met by the leaves "ab",
"cd" with the stream: the string "a", a bold token over "bc", a title token of
no length, the string "d". One decoration is returned, of mark type bold,
covering positions 1 to 3. -/
theorem decorateNode_previewable_witness :
    typesOk [.str "a", .nested "bold" [.str "bc"] 2, .flat "title" "" 0, .str "d"] ∧
    ∃ ds, decorateNode
        (fun _ => [.str "a", .nested "bold" [.str "bc"] 2, .flat "title" "" 0, .str "d"])
        ⟨"block", [⟨"a", "ab"⟩, ⟨"b", "cd"⟩]⟩ false none = some ([] ++ ds) ∧
      ds.map Decoration.markType = ["bold"] ∧
      ds.length = 1 ∧
      ds.map (span [⟨"a", "ab"⟩, ⟨"b", "cd"⟩]) = [(1, 3, "bold")] := by
  have hty : typesOk
      [.str "a", .nested "bold" [.str "bc"] 2, .flat "title" "" 0, .str "d"] := by
    intro t ht ty hty
    simp only [List.mem_cons, List.mem_singleton, List.not_mem_nil, or_false] at ht
    rcases ht with h | h | h | h <;> subst h <;> simp [Token.type?] at hty <;>
      subst hty <;> decide
  obtain ⟨ds, hret, h1, h2, _, h3⟩ :=
    decorateNode_previewable
      (fun _ => [.str "a", .nested "bold" [.str "bc"] 2, .flat "title" "" 0, .str "d"])
      ⟨"block", [⟨"a", "ab"⟩, ⟨"b", "cd"⟩]⟩ none rfl (by decide) (by decide) hty
  exact ⟨hty, ds, hret, by rw [h1]; decide, by rw [h2]; decide,
    by rw [h3 (by decide)]; decide⟩

/-- Claim C12. For a block with distinct leaf keys and tokens whose consumed
lengths fit in the block's text, whatever `decorateNode` returns is the
decorations of `next()` followed by decorations that lie in order on the text
axis: each has its anchor at or before its focus, within the text, and of any
two of them the focus of the earlier one is at or before the anchor of the
later one (in particular of two emitted one after the other). With at least
one text leaf `decorateNode` does return. -/
theorem decorations_ordered (tokenize : String → List Token) (node : Node)
    (others : Option (List Decoration)) (hb : node.object = "block")
    (hkeys : (node.texts.map Leaf.key).Nodup)
    (hfit : consumedSum (tokenize node.text) ≤ totalLen node.texts) :
    (∀ out, decorateNode tokenize node false others = some out →
      ∃ ds, out = others.getD [] ++ ds ∧
        (∀ d ∈ ds, 0 ≤ absPos node.texts d.anchor ∧
          absPos node.texts d.anchor ≤ absPos node.texts d.focus ∧
          absPos node.texts d.focus ≤ totalLen node.texts) ∧
        ds.Pairwise (fun d1 d2 => absPos node.texts d1.focus ≤ absPos node.texts d2.anchor) ∧
        ds.Chain' (fun d1 d2 => absPos node.texts d1.focus ≤ absPos node.texts d2.anchor)) ∧
    (node.texts ≠ [] → ∃ out, decorateNode tokenize node false others = some out) := by
  constructor
  · intro out hout
    by_cases hk : node.texts = []
    · simp only [decorateNode, hb, hk] at hout
      cases hw : walkTokens (resetVars []) (tokenize node.text) with
      | none => simp [hw] at hout
      | some r =>
        obtain ⟨c, ds⟩ := r
        have hds := walkTokens_no_leaf _ c ds hw
        subst hds
        simp [hw] at hout
        exact ⟨[], by simp [hout], by simp, by simp, by simp⟩
    · obtain ⟨ds, hret, hds⟩ := decorateNode_block tokenize node others hb hk hkeys hfit
      rw [hret] at hout
      injection hout with hout
      have hpw : ds.Pairwise
          (fun d1 d2 => absPos node.texts d1.focus ≤ absPos node.texts d2.anchor) := by
        have h := spansWith_pairwise canPreview (tokenize node.text) 0
        rw [← hds, List.pairwise_map] at h
        exact h
      refine ⟨ds, hout.symm, ?_, hpw, hpw.chain'⟩
      intro d hd
      have hmem : span node.texts d ∈ spansWith canPreview 0 (tokenize node.text) := by
        rw [← hds]; exact List.mem_map_of_mem _ hd
      have h := spansWith_bounds canPreview (tokenize node.text) 0 _ hmem
      simp only [span] at h
      refine ⟨h.1, h.2.1, ?_⟩
      have h3 := h.2.2
      have : (consumedSum (tokenize node.text) : Int) ≤ totalLen node.texts := by
        exact_mod_cast hfit
      omega
  · intro hk
    obtain ⟨ds, hret, _⟩ := decorateNode_block tokenize node others hb hk hkeys hfit
    exact ⟨_, hret⟩

/-- The hypotheses of `decorations_ordered` are met by the leaves "ab", "cd"
with a bold token over "ab" followed by an italic token over "cd":
`decorateNode` returns. -/
theorem decorations_ordered_witness :
    ∃ out, decorateNode (fun _ => [.flat "bold" "ab" 2, .flat "italic" "cd" 2])
        ⟨"block", [⟨"a", "ab"⟩, ⟨"b", "cd"⟩]⟩ false none = some out :=
  (decorations_ordered (fun _ => [.flat "bold" "ab" 2, .flat "italic" "cd" 2])
    ⟨"block", [⟨"a", "ab"⟩, ⟨"b", "cd"⟩]⟩ none rfl (by decide) (by decide)).2 (by decide)

/-! ## The leaf cursor is not exhausted -/

theorem advance_suffix (texts : List Leaf) :
    ∀ (e : Leaf) (available remaining endOffset : Int) (r : List Leaf × Leaf × Int),
      advance texts e available remaining endOffset = some r → r.1 <:+ texts := by
  induction texts with
  | nil =>
    intro e available remaining endOffset r h
    by_cases hlt : available < remaining
    · simp [advance, hlt] at h
    · simp only [advance, hlt, if_false, Option.some.injEq] at h
      subst h
      exact List.suffix_refl _
  | cons t rest ih =>
    intro e available remaining endOffset r h
    by_cases hlt : available < remaining
    · simp only [advance, hlt, if_true] at h
      exact (ih _ _ _ _ r h).trans (List.suffix_cons t rest)
    · simp only [advance, hlt, if_false, Option.some.injEq] at h
      subst h
      exact List.suffix_refl _

theorem advance_overflow (texts : List Leaf) :
    ∀ (e : Leaf) (available remaining endOffset : Int),
      (totalLen texts : Int) < remaining - available →
      advance texts e available remaining endOffset = none := by
  induction texts with
  | nil =>
    intro e available remaining endOffset h
    have hlt : available < remaining := by simp [totalLen] at h; omega
    simp [advance, hlt]
  | cons t rest ih =>
    intro e available remaining endOffset h
    rw [totalLen_cons] at h
    have hlt : available < remaining := by push_cast at h; omega
    simp only [advance, hlt, if_true]
    exact ih _ _ _ _ (by push_cast at h ⊢; omega)

theorem walkTokens_overflow (leaves : List Leaf) (tokens : List Token) :
    ∀ (c : Cursor) (pos : Nat), CursorAt leaves c pos →
      totalLen leaves < pos + consumedSum tokens → walkTokens c tokens = none := by
  induction tokens with
  | nil =>
    intro c pos hc hover
    obtain ⟨pre, e, hsplit, _, hpos, _, h1⟩ := hc
    have htot : totalLen leaves = totalLen pre + (e.text.length + totalLen c.texts) := by
      rw [hsplit, totalLen_append, totalLen_cons]
    simp only [consumedSum, List.map_nil, List.sum_nil] at hover
    omega
  | cons t ts ih =>
    intro c pos hc hover
    rw [consumedSum_cons] at hover
    by_cases hfit : pos + consumed t ≤ totalLen leaves
    · obtain ⟨c1, hstep, _, _, hc1⟩ := stepToken_fits leaves c pos t hc hfit
      have h := ih c1 (pos + consumed t) hc1 (by omega)
      simp [walkTokens, hstep, h]
    · obtain ⟨pre, e, hsplit, hend, hpos, _, _⟩ := hc
      have htot : totalLen leaves = totalLen pre + (e.text.length + totalLen c.texts) := by
        rw [hsplit, totalLen_append, totalLen_cons]
      have hadv := advance_overflow c.texts e (e.text.length - c.endOffset) (consumed t)
        (c.endOffset + consumed t) (by omega)
      simp [walkTokens, stepToken, hend, hadv]

/-- Claim C20. For a block with at least one text leaf and tokens whose
consumed lengths sum to at most the total length of the leaves, the token loop
of `decorateNode` returns, and for every token the `while` loop returns an end
leaf: it never takes a leaf from an empty list (the only way it yields `none`),
and the leaves it leaves are a tail of the leaves it started with, so it takes
at most as many leaves as there were. Empty leaves and tokens of length 0 are
covered. The bound is sharp: when the consumed lengths sum to more than the
total length, the loop does run out of leaves. -/
theorem cursor_not_exhausted (leaves : List Leaf) (tokens : List Token)
    (hk : leaves ≠ []) (hfit : consumedSum tokens ≤ totalLen leaves) :
    (∃ c ds, walkTokens (resetVars leaves) tokens = some (c, ds)) ∧
    (∀ (tokenize : String → List Token) (others : Option (List Decoration)),
      tokenize (Node.text ⟨"block", leaves⟩) = tokens →
      ∃ ds, decorateNode tokenize ⟨"block", leaves⟩ false others = some ds) ∧
    (∀ (n : Nat) (hn : n < tokens.length),
      ∃ p ds startText r,
        walkTokens (resetVars leaves) (tokens.take n) = some (p, ds) ∧
        p.endText = some startText ∧
        advance p.texts startText ((startText.text.length : Int) - p.endOffset)
          (consumed tokens[n]) (p.endOffset + consumed tokens[n]) = some r ∧
        r.1 <:+ p.texts) ∧
    (∀ (more : List Token), totalLen leaves < consumedSum more →
      walkTokens (resetVars leaves) more = none) := by
  have hinit := cursorAt_resetVars leaves hk
  obtain ⟨c, ds, hwalk, _⟩ := walkTokens_fits leaves tokens _ 0 hinit (by omega)
  refine ⟨⟨c, ds, hwalk⟩, ?_, ?_, ?_⟩
  · intro tokenize others htok
    exact ⟨others.getD [] ++ ds, by simp [decorateNode, htok, hwalk]⟩
  · intro n hn
    have hle := consumedSum_take_le tokens n hn
    obtain ⟨p, ds1, hw1, hp⟩ := walkTokens_fits leaves (tokens.take n) _ 0 hinit (by omega)
    rw [Nat.zero_add] at hp
    obtain ⟨c1, hstep, _, _, _⟩ := stepToken_fits leaves p _ tokens[n] hp (by omega)
    obtain ⟨_, e, _, hend, _, _, _⟩ := hp
    cases hadv : advance p.texts e ((e.text.length : Int) - p.endOffset)
        (consumed tokens[n]) (p.endOffset + consumed tokens[n]) with
    | none => simp [stepToken, hend, hadv] at hstep
    | some r => exact ⟨p, ds1, e, r, hw1, hend, hadv, advance_suffix _ _ _ _ _ r hadv⟩
  · intro more hover
    exact walkTokens_overflow leaves more _ 0 hinit (by omega)

/-- The hypotheses of `cursor_not_exhausted` are met by a block whose leaves
are "", "a", "" with tokens of lengths 0, 1, 0: the loop returns. -/
theorem cursor_not_exhausted_witness :
    ([⟨"x", ""⟩, ⟨"y", "a"⟩, ⟨"z", ""⟩] : List Leaf) ≠ [] ∧
    consumedSum [.str "", .flat "bold" "a" 1, .str ""]
      ≤ totalLen [⟨"x", ""⟩, ⟨"y", "a"⟩, ⟨"z", ""⟩] ∧
    (∃ c ds, walkTokens (resetVars [⟨"x", ""⟩, ⟨"y", "a"⟩, ⟨"z", ""⟩])
      [.str "", .flat "bold" "a" 1, .str ""] = some (c, ds)) :=
  ⟨by decide, by decide,
   (cursor_not_exhausted [⟨"x", ""⟩, ⟨"y", "a"⟩, ⟨"z", ""⟩]
     [.str "", .flat "bold" "a" 1, .str ""] (by decide) (by decide)).1⟩

/-! ## The disabled flag and the finalize call -/

/-- Claim C17. With the markdown-disabled flag set, for every node (given or
not), every `done` value and every pointer state, `convertMarkdown` returns
having issued no command and with the fence pointer and both list-run pointers
as they were; and `decorateNode` returns exactly the decorations of `next()`,
the empty list when `next()` returned nothing. -/
theorem disabled_is_identity (tokenize : String → List Token) (blockNode : Option Node)
    (done : Bool) (st : MdState) (node : Node) (others : List Decoration) :
    convertMarkdown tokenize true blockNode done st = .ok (st, []) ∧
    decorateNode tokenize node true (some others) = some others ∧
    decorateNode tokenize node true none = some [] := by
  refine ⟨rfl, ?_, ?_⟩ <;> simp [decorateNode]

/-- Claim C16. With markdown enabled, `convertMarkdown` called with the `done`
flag set returns, for every node argument and every state, with the fence
pointer unset; it issues no wrap in a code block and no `deleteNode`: its
commands are none, or the three commands of the list-run wrap. An opening
fence captured before is thus dropped without conversion; and after the call
`markCode` issues no command on any block, a closing-fence line included, so
no code block reaching back to the dropped fence is created (a line "```"
is taken as a new opening fence). -/
theorem done_clears_fence (tokenize : String → List Token) (blockNode : Option Node)
    (st : MdState) :
    ∃ st1 cmds, convertMarkdown tokenize false blockNode true st = .ok (st1, cmds) ∧
      st1.codeBeginPointer = none ∧
      (∀ d, Cmd.wrapBlock "code" d ∉ cmds) ∧ (∀ n, Cmd.deleteNode n ∉ cmds) ∧
      (cmds = [] ∨ ∃ listStart, st.listStartNode = some listStart ∧
        cmds = [.moveAnchorToStartOfNode listStart, .moveFocusToEndOfNode st.listEndNode,
                .wrapBlock "list" none]) ∧
      (∀ b : Node, (markCode st1 b).2 = []) ∧
      (∀ key : String, (markCode st1 ⟨"block", [⟨key, "```"⟩]⟩)
        = ({ st1 with codeBeginPointer := some ⟨⟨key, "```"⟩, ""⟩ }, [])) ∧
      (∀ b : Node, b.object = "block" → blockTokensOk tokenize b = true →
        ∃ st2 cmds2, convertMarkdown tokenize false (some b) false st1 = .ok (st2, cmds2) ∧
          ∀ d, Cmd.wrapBlock "code" d ∉ cmds2) := by
  have hmark : ∀ (s : MdState), s.codeBeginPointer = none → ∀ b : Node, (markCode s b).2 = [] := by
    intro s hs b
    unfold markCode
    rcases hb : b.texts with _ | ⟨leaf, _ | ⟨l2, rest⟩⟩
    · rfl
    · rcases hx : codeBeginExec leaf.text with _ | lang <;> simp [hs, hx]
    · rfl
  have hnext : ∀ (s : MdState), s.codeBeginPointer = none → ∀ b : Node, b.object = "block" →
      blockTokensOk tokenize b = true →
      ∃ st2 cmds2, convertMarkdown tokenize false (some b) false s = .ok (st2, cmds2) ∧
        ∀ d, Cmd.wrapBlock "code" d ∉ cmds2 := by
    intro s hs b hb hok
    obtain ⟨st2, rest, hc, _, hw⟩ := convertMarkdown_block_fence tokenize s b hb hok
    rw [hmark s hs b] at hc
    exact ⟨st2, [] ++ rest, hc, by simpa using hw⟩
  cases hls : st.listStartNode with
  | none =>
    refine ⟨{ st with codeBeginPointer := none }, [], by simp [convertMarkdown, finishList, hls],
      rfl, by simp, by simp, Or.inl rfl, hmark _ rfl, ?_, hnext _ rfl⟩
    intro key
    simp [markCode, codeBeginExec_bare]
  | some l =>
    refine ⟨{ codeBeginPointer := none, listStartNode := none, listEndNode := none },
      [.moveAnchorToStartOfNode l, .moveFocusToEndOfNode st.listEndNode, .wrapBlock "list" none],
      by simp [convertMarkdown, finishList, hls], rfl, by simp, by simp,
      Or.inr ⟨l, rfl, rfl⟩, hmark _ rfl, ?_, hnext _ rfl⟩
    intro key
    simp [markCode, codeBeginExec_bare]

/-- Claim C15. Whenever `sendMessage` completes, it has called `send` exactly
once, with the built message; `onChange` was called exactly when `send`
returned a truthy result; and it has issued no editor command and left the
markdown module state as it was, so with a falsy result the document is as
before the command. -/
theorem sendMessage_handoff (tokenize : String → List Token) (ed : SendEditor)
    (ch : Channels) (md : MdState) (out : SendOutcome)
    (h : sendMessage tokenize ed ch md = .ok out) :
    ∃ message, out.sent = [message] ∧
      message = (buildMessage ed.plainText (cleanUpContent (ed.htmlSerialize ch).1)
                  (ed.htmlSerialize ch).2).1 ∧
      out.changed = ed.send message ∧
      (ed.send message = false → out.changed = false) ∧
      out.cmds = [] ∧ out.md = md := by
  have hdis : ed.disabled = true := by
    cases hd : ed.disabled with
    | true => rfl
    | false => simp [sendMessage, convertMarkdown, hd] at h
  rw [sendMessage_disabled tokenize ed ch md hdis] at h
  injection h with h
  subst h
  exact ⟨_, rfl, rfl, rfl, fun hf => hf, rfl, rfl⟩

/-- The hypothesis of `sendMessage_handoff` is met by an editor with markdown
disabled whose host rejects the message: `send` is called once and `onChange`
is not called. -/
theorem sendMessage_handoff_witness :
    sendMessage (fun _ => []) ⟨true, "hi", fun c => ("<div>hi</div>", c), fun _ => false⟩
        ⟨[], []⟩ MdState.init
      = .ok { sent := [⟨"hi", "<div>hi</div>", none, none⟩]
              changed := false, channels := ⟨[], []⟩, md := MdState.init, cmds := [] } ∧
    ∃ message, [(⟨"hi", "<div>hi</div>", none, none⟩ : Message)] = [message] ∧
      message = (buildMessage "hi" (cleanUpContent "<div>hi</div>") ⟨[], []⟩).1 ∧
      false = (fun _ : Message => false) message ∧
      ((fun _ : Message => false) message = false → false = false) ∧
      ([] : List Cmd) = [] ∧ MdState.init = MdState.init :=
  ⟨by decide,
   sendMessage_handoff (fun _ => [])
     ⟨true, "hi", fun c => ("<div>hi</div>", c), fun _ => false⟩ ⟨[], []⟩ MdState.init
     { sent := [⟨"hi", "<div>hi</div>", none, none⟩]
       changed := false, channels := ⟨[], []⟩, md := MdState.init, cmds := [] }
     (by decide)⟩

/-! ## `cleanUpContent` -/

theorem replaceAllFrom_drop (pat rep : List Char) (s : List Char) :
    ∀ (k : Nat), replaceAllFrom pat rep k s = replaceAllFrom pat rep 0 (s.drop k) := by
  induction s with
  | nil => intro k; cases k <;> rfl
  | cons c cs ih =>
    intro k
    cases k with
    | zero => rfl
    | succ k => simp only [replaceAllFrom, List.drop_succ_cons]; exact ih k

theorem replaceAll_cons (pat rep : List Char) (hpat : pat ≠ []) (c : Char) (cs : List Char) :
    replaceAllFrom pat rep 0 (c :: cs)
      = if pat.isPrefixOf (c :: cs) then
          rep ++ replaceAllFrom pat rep 0 ((c :: cs).drop pat.length)
        else c :: replaceAllFrom pat rep 0 cs := by
  cases pat with
  | nil => exact absurd rfl hpat
  | cons a pat1 =>
    simp only [replaceAllFrom, List.length_cons, Nat.add_sub_cancel, List.drop_succ_cons]
    rw [replaceAllFrom_drop]

theorem prefix_append_compat (q a x : List Char) (h : q <+: a ++ x) : compat a q = true := by
  have h2 : a <+: a ++ x := List.prefix_append a x
  simp only [compat, Bool.or_eq_true, List.isPrefixOf_iff_prefix]
  exact (List.prefix_or_prefix_of_prefix h h2).symm

theorem isPrefixOf_split (pat s : List Char) (h : pat.isPrefixOf s = true) :
    s = pat ++ s.drop pat.length := by
  rw [List.isPrefixOf_iff_prefix] at h
  obtain ⟨t, ht⟩ := h
  rw [← ht]
  simp

/-- A text that begins the output of the replacement at a place where copying
resumes, and that no replacement can run into, begins the input there. -/
theorem replaceAll_prefix (pat rep : List Char) (hpat : pat ≠ []) (q : List Char) :
    ∀ (s : List Char), tailsSafe rep q = true → q <+: replaceAllFrom pat rep 0 s → q <+: s := by
  induction q with
  | nil => intro s _ _; exact List.nil_prefix
  | cons a q ih =>
    intro s hsafe h
    simp only [tailsSafe, Bool.and_eq_true, Bool.not_eq_true'] at hsafe
    cases s with
    | nil => simp [replaceAllFrom] at h
    | cons c cs =>
      rw [replaceAll_cons pat rep hpat] at h
      by_cases hm : pat.isPrefixOf (c :: cs) = true
      · simp only [hm, if_true] at h
        have := prefix_append_compat _ _ _ h
        rw [hsafe.1] at this
        cases this
      · rw [if_neg hm] at h
        have hac : a = c := by
          obtain ⟨t, ht⟩ := h
          simp only [List.cons_append, List.cons.injEq] at ht
          exact ht.1
        subst hac
        have hq : q <+: replaceAllFrom pat rep 0 cs := by
          obtain ⟨t, ht⟩ := h
          simp only [List.cons_append, List.cons.injEq, true_and] at ht
          exact ⟨t, ht⟩
        obtain ⟨t, ht⟩ := ih cs hsafe.2 hq
        exact ⟨t, by simp [ht]⟩

theorem suffix_append_cases (t a b : List Char) (h : t <:+ a ++ b) :
    t <:+ b ∨ ∃ a2, a2 ≠ [] ∧ a2 <:+ a ∧ t = a2 ++ b := by
  induction a with
  | nil => exact Or.inl h
  | cons x a ih =>
    rw [List.cons_append, List.suffix_cons_iff] at h
    rcases h with h | h
    · exact Or.inr ⟨x :: a, by simp, List.suffix_refl _, by simp [h]⟩
    · rcases ih h with h1 | ⟨a2, hne, hsuf, heq⟩
      · exact Or.inl h1
      · exact Or.inr ⟨a2, hne, hsuf.trans (List.suffix_cons x a), heq⟩

/-- Every tail of the output starts where copying resumes at a tail of the
input, or inside a replacement. -/
theorem replaceAll_tails (pat rep : List Char) (hpat : pat ≠ []) (n : Nat) :
    ∀ (s : List Char), s.length ≤ n → ∀ (t : List Char),
      t <:+ replaceAllFrom pat rep 0 s →
      (∃ s1, s1 <:+ s ∧ t = replaceAllFrom pat rep 0 s1) ∨
      (∃ r s1, r ≠ [] ∧ r <:+ rep ∧ s1 <:+ s ∧ t = r ++ replaceAllFrom pat rep 0 s1) := by
  induction n with
  | zero =>
    intro s hs t ht
    have : s = [] := List.length_eq_zero.1 (Nat.le_zero.1 hs)
    subst this
    simp only [replaceAllFrom, List.suffix_nil] at ht
    exact Or.inl ⟨[], List.suffix_refl _, by simp [ht, replaceAllFrom]⟩
  | succ n ih =>
    intro s hs t ht
    cases s with
    | nil =>
      simp only [replaceAllFrom, List.suffix_nil] at ht
      exact Or.inl ⟨[], List.suffix_refl _, by simp [ht, replaceAllFrom]⟩
    | cons c cs =>
      rw [replaceAll_cons pat rep hpat] at ht
      by_cases hm : pat.isPrefixOf (c :: cs) = true
      · simp only [hm, if_true] at ht
        have hsplit := isPrefixOf_split pat (c :: cs) hm
        have hlen : ((c :: cs).drop pat.length).length ≤ n := by
          have hp : 0 < pat.length := List.length_pos.2 hpat
          simp only [List.length_drop, List.length_cons] at hs ⊢
          omega
        have hsuf : (c :: cs).drop pat.length <:+ c :: cs := List.drop_suffix _ _
        rcases suffix_append_cases _ _ _ ht with h | ⟨r, hne, hr, heq⟩
        · rcases ih _ hlen t h with ⟨s1, hs1, h1⟩ | ⟨r, s1, hne, hr, hs1, h1⟩
          · exact Or.inl ⟨s1, hs1.trans hsuf, h1⟩
          · exact Or.inr ⟨r, s1, hne, hr, hs1.trans hsuf, h1⟩
        · exact Or.inr ⟨r, _, hne, hr, hsuf, heq⟩
      · rw [if_neg hm] at ht
        rw [List.suffix_cons_iff] at ht
        rcases ht with h | h
        · refine Or.inl ⟨c :: cs, List.suffix_refl _, ?_⟩
          rw [h, replaceAll_cons pat rep hpat]
          simp [hm]
        · have hlen : cs.length ≤ n := by simp only [List.length_cons] at hs; omega
          rcases ih cs hlen t h with ⟨s1, hs1, h1⟩ | ⟨r, s1, hne, hr, hs1, h1⟩
          · exact Or.inl ⟨s1, hs1.trans (List.suffix_cons c cs), h1⟩
          · exact Or.inr ⟨r, s1, hne, hr, hs1.trans (List.suffix_cons c cs), h1⟩

theorem insideSafe_spec (rep q r : List Char) (h : insideSafe rep q = true)
    (hne : r ≠ []) (hr : r <:+ rep) : compat r q = false := by
  simp only [insideSafe, List.all_eq_true, List.mem_tails, Bool.or_eq_true,
    Bool.not_eq_true'] at h
  rcases h r hr with h1 | h1
  · simp only [List.isEmpty_iff] at h1
    exact absurd h1 hne
  · exact h1

/-- A text that no replacement can run into and that runs into no replacement
occurs in the output of the replacement only where it occurs in the input. -/
theorem replaceAll_preserves (pat rep q : List Char) (hpat : pat ≠ [])
    (h1 : tailsSafe rep q = true) (h2 : insideSafe rep q = true) (s : List Char)
    (h : q <:+: replaceAllFrom pat rep 0 s) : q <:+: s := by
  obtain ⟨t, hq, ht⟩ := List.infix_iff_prefix_suffix.1 h
  rcases replaceAll_tails pat rep hpat s.length s (Nat.le_refl _) t ht with
    ⟨s1, hs1, heq⟩ | ⟨r, s1, hne, hr, _, heq⟩
  · rw [heq] at hq
    exact List.infix_iff_prefix_suffix.2 ⟨s1, replaceAll_prefix pat rep hpat q s1 h1 hq, hs1⟩
  · rw [heq] at hq
    have hc := prefix_append_compat _ _ _ hq
    rw [insideSafe_spec rep q r h2 hne hr] at hc
    cases hc

/-- The pattern does not occur in the output of its own replacement. -/
theorem replaceAll_removes (pat rep : List Char) (hpat : pat ≠ [])
    (h1 : tailsSafe rep pat = true) (h2 : insideSafe rep pat = true) (s : List Char) :
    ¬ pat <:+: replaceAllFrom pat rep 0 s := by
  intro h
  obtain ⟨t, hq, ht⟩ := List.infix_iff_prefix_suffix.1 h
  rcases replaceAll_tails pat rep hpat s.length s (Nat.le_refl _) t ht with
    ⟨s1, _, heq⟩ | ⟨r, s1, hne, hr, _, heq⟩
  · rw [heq] at hq
    have hin := replaceAll_prefix pat rep hpat pat s1 h1 hq
    cases s1 with
    | nil => exact hpat (List.prefix_nil.1 hin)
    | cons c cs =>
      have hm : pat.isPrefixOf (c :: cs) = true := List.isPrefixOf_iff_prefix.2 hin
      rw [replaceAll_cons pat rep hpat, if_pos hm] at hq
      have hc := prefix_append_compat _ _ _ hq
      cases pat with
      | nil => exact hpat rfl
      | cons a pat1 =>
        simp only [tailsSafe, Bool.and_eq_true, Bool.not_eq_true'] at h1
        rw [h1.1] at hc
        cases hc
  · rw [heq] at hq
    have hc := prefix_append_compat _ _ _ hq
    rw [insideSafe_spec rep pat r h2 hne hr] at hc
    cases hc

theorem replacedIn_refl (pat rep : List Char) (s : List Char) : ReplacedIn pat rep s s := by
  induction s with
  | nil => exact .done
  | cons c cs ih => exact .keep c ih

theorem replaceFirst_replacedIn (pat rep : List Char) (s : List Char) :
    ReplacedIn pat rep s (replaceFirst pat rep s) := by
  induction s with
  | nil => exact .done
  | cons c cs ih =>
    by_cases hm : pat.isPrefixOf (c :: cs) = true
    · simp only [replaceFirst, hm, if_true]
      have h := ReplacedIn.swap (replacedIn_refl pat rep ((c :: cs).drop pat.length))
      rw [← isPrefixOf_split pat (c :: cs) hm] at h
      exact h
    · simp only [replaceFirst, hm]
      exact .keep c ih

theorem replaceAll_replacedIn (pat rep : List Char) (hpat : pat ≠ []) (n : Nat) :
    ∀ (s : List Char), s.length ≤ n → ReplacedIn pat rep s (replaceAllFrom pat rep 0 s) := by
  induction n with
  | zero =>
    intro s hs
    have : s = [] := List.length_eq_zero.1 (Nat.le_zero.1 hs)
    subst this
    exact .done
  | succ n ih =>
    intro s hs
    cases s with
    | nil => exact .done
    | cons c cs =>
      rw [replaceAll_cons pat rep hpat]
      by_cases hm : pat.isPrefixOf (c :: cs) = true
      · rw [if_pos hm]
        have hlen : ((c :: cs).drop pat.length).length ≤ n := by
          have hp : 0 < pat.length := List.length_pos.2 hpat
          simp only [List.length_drop, List.length_cons] at hs ⊢
          omega
        have h := ReplacedIn.swap (ih _ hlen)
        rw [← isPrefixOf_split pat (c :: cs) hm] at h
        exact h
      · rw [if_neg hm]
        exact .keep c (ih cs (by simp only [List.length_cons] at hs; omega))

theorem replaceFirst_absent (pat rep : List Char) (s : List Char) (h : ¬ pat <:+: s) :
    replaceFirst pat rep s = s := by
  induction s with
  | nil => rfl
  | cons c cs ih =>
    have hm : ¬ pat.isPrefixOf (c :: cs) = true := by
      intro hm
      exact h (List.isPrefixOf_iff_prefix.1 hm).isInfix
    have hcs : ¬ pat <:+: cs := fun hi => h (hi.trans (List.suffix_cons c cs).isInfix)
    simp only [replaceFirst]
    rw [if_neg hm, ih hcs]

theorem replaceAll_absent (pat rep : List Char) (hpat : pat ≠ []) (s : List Char)
    (h : ¬ pat <:+: s) : replaceAllFrom pat rep 0 s = s := by
  induction s with
  | nil => rfl
  | cons c cs ih =>
    have hm : ¬ pat.isPrefixOf (c :: cs) = true := by
      intro hm
      exact h (List.isPrefixOf_iff_prefix.1 hm).isInfix
    have hcs : ¬ pat <:+: cs := fun hi => h (hi.trans (List.suffix_cons c cs).isInfix)
    rw [replaceAll_cons pat rep hpat, if_neg hm, ih hcs]

/-- Claim C13. For every input, the result of `cleanUpContent` contains no
"<code>" and no "<div></div>". Each of its three passes changes its input only
by replacing occurrences of its pattern by the replacement (the newline before
"</code>" removed, "<code>" given the class language-none, "<div></div>" made
"<br>"), every other character staying in place; and an input in which none of
the three patterns occurs is returned unchanged. -/
theorem cleanUpContent_patterns (content : String) :
    ¬ occursIn "<code>" (cleanUpContent content) ∧
    ¬ occursIn "<div></div>" (cleanUpContent content) ∧
    (∃ c1 c2 : List Char,
      ReplacedIn "\n</code>".toList "</code>".toList content.toList c1 ∧
      ReplacedIn "<code>".toList "<code class=\"language-none\">".toList c1 c2 ∧
      ReplacedIn "<div></div>".toList "<br>".toList c2 (cleanUpContent content).toList) ∧
    (¬ occursIn "\n</code>" content → ¬ occursIn "<code>" content →
      ¬ occursIn "<div></div>" content → cleanUpContent content = content) := by
  have hcode : "<code>".toList ≠ [] := by decide
  have hdiv : "<div></div>".toList ≠ [] := by decide
  refine ⟨?_, ?_, ?_, ?_⟩
  · intro h
    simp only [occursIn, cleanUpContent] at h
    have h2 := replaceAll_preserves "<div></div>".toList "<br>".toList "<code>".toList hdiv
      (by decide) (by decide) _ h
    exact replaceAll_removes "<code>".toList "<code class=\"language-none\">".toList hcode
      (by decide) (by decide) _ h2
  · intro h
    simp only [occursIn, cleanUpContent] at h
    exact replaceAll_removes "<div></div>".toList "<br>".toList hdiv (by decide) (by decide) _ h
  · exact ⟨_, _, replaceFirst_replacedIn _ _ _,
      replaceAll_replacedIn _ _ hcode _ _ (Nat.le_refl _),
      replaceAll_replacedIn _ _ hdiv _ _ (Nat.le_refl _)⟩
  · intro h1 h2 h3
    simp only [occursIn] at h1 h2 h3
    simp only [cleanUpContent]
    rw [replaceFirst_absent _ _ _ h1, replaceAll_absent _ _ hcode _ h2,
      replaceAll_absent _ _ hdiv _ h3]
    rfl

/-- Claim C14, evaluated on the code. For one code element the newline before
"</code>" is stripped; for two code elements that each end with a newline,
only the first newline is stripped (the pattern of the first `replace` has no
`g` flag), and the result still contains a newline followed by "</code>". -/
theorem cleanUpContent_second_code_element :
    cleanUpContent "<pre><code>a\n</code></pre>"
      = "<pre><code class=\"language-none\">a</code></pre>" ∧
    cleanUpContent "<pre><code>a\n</code></pre><pre><code>b\n</code></pre>"
      = "<pre><code class=\"language-none\">a</code></pre><pre><code class=\"language-none\">b\n</code></pre>" ∧
    occursIn "\n</code>"
      (cleanUpContent "<pre><code>a\n</code></pre><pre><code>b\n</code></pre>") := by
  refine ⟨by decide, by decide, ?_⟩
  exact ⟨"<pre><code class=\"language-none\">a</code></pre><pre><code class=\"language-none\">b".toList,
    "</pre>".toList, by decide⟩

/-! ## Unrecognized nodes and `addNewLine` -/

/-- Claim C18, evaluated on the code. An inline whose type is not the mention
type gets `undefined`, not `null`, from `rules[0].serialize`, and `undefined`
from `rules[1].serialize` (it is no mark): no serialize rule returns a result
for it. The other parts hold: a block of a type outside the cases of
`rules[0].serialize` and a mark of a type outside the cases of
`rules[1].serialize` get `null`, and an element whose lower-cased tag is in
neither table (and is no property name of `Object.prototype`) gets
`undefined` from both `deserialize` rules; the tag `constructor`, found on the
prototype of the table, is matched. -/
theorem unrecognized_nodes (convertMarkdownToHTML : Option Html → Html) (type : String)
    (data : Data) (children : List Html) (ch : Channels) :
    (type ≠ "userMention" →
      rules0_serialize ⟨"inline", type, data⟩ children ch = (.undefined, ch) ∧
      rules1_serialize convertMarkdownToHTML ⟨"inline", type, data⟩ children = .undefined) ∧
    rules0_serialize ⟨"inline", "link", []⟩ [.text "x"] ch = (.undefined, ch) ∧
    rules1_serialize convertMarkdownToHTML ⟨"inline", "link", []⟩ [.text "x"] = .undefined ∧
    (type ∉ ["paragraph", "code", "plain", "blockquote", "list-item", "unordered-list",
        "h1", "h2", "h3", "h4", "h5", "ordered-list", "hr"] →
      rules0_serialize ⟨"block", type, data⟩ children ch = (.null, ch)) ∧
    (type ∉ ["bold", "italic", "underline", "code", "url", "plain", "clear", "delete"] →
      rules1_serialize convertMarkdownToHTML ⟨"mark", type, data⟩ children = .null) ∧
    (∀ (tagName : String) (classAttr : JsValue) (nodes : List Html),
      toLowerCase tagName ∉ ["blockquote", "p", "pre", "em", "strong", "u"] →
      inheritedKey (toLowerCase tagName) = false →
      rules0_deserialize tagName classAttr nodes = none ∧
      rules1_deserialize tagName nodes = none) ∧
    (rules0_deserialize "constructor" (.null) children).isSome = true := by
  have hc : toLowerCase "constructor" = "constructor" := by decide
  have hi : inheritedKey "constructor" = true := by decide
  refine ⟨?_, ?_, ?_, ?_, ?_, ?_,
    by simp [rules0_deserialize, BLOCK_TAGS, hc, hi, JsValue.truthy]⟩
  · intro h
    simp [rules0_serialize, rules1_serialize, h]
  · simp [rules0_serialize]
  · simp [rules1_serialize]
  · intro h
    simp only [List.mem_cons, List.mem_singleton, List.not_mem_nil, or_false, not_or] at h
    simp [rules0_serialize, h]
  · intro h
    simp only [List.mem_cons, List.mem_singleton, List.not_mem_nil, or_false, not_or] at h
    simp [rules1_serialize, h]
  · intro tagName classAttr nodes h hin
    simp only [List.mem_cons, List.mem_singleton, List.not_mem_nil, or_false, not_or] at h
    simp [rules0_deserialize, rules1_deserialize, BLOCK_TAGS, MARK_TAGS, h, hin, JsValue.truthy]

/-- Claim C19 as stated fails: when the last child is the empty string (as in
the children "a", `<br/>`, "" of a text that ends with a line break),
`addNewLine` returns the children unchanged, without a line-break character
after the last child. -/
theorem addNewLine_empty_last :
    addNewLine [.text "a", .element "br" [] [], .text ""]
      = [.text "a", .element "br" [] [], .text ""] ∧
    addNewLine [.text "a", .element "br" [] [], .text ""]
      ≠ [.text "a", .element "br" [] [], .text ("" ++ "\n")] := by
  refine ⟨by simp [addNewLine, Html.truthy], ?_⟩
  simp [addNewLine, Html.truthy]

/-- Claim C19, amended. For every list of rendered children `addNewLine`
returns a list of the same length in which every child but the last is
unchanged; the last child, when it is truthy (a non-empty string, an element),
is replaced by its string form followed by one "\n" (for a non-empty string:
the string with "\n" appended), and when it is falsy (the empty string) it is
left as it is. For the empty list it returns the empty list. -/
theorem addNewLine_last (children : List Html) :
    (addNewLine children).length = children.length ∧
    (addNewLine children).dropLast = children.dropLast ∧
    (∀ last, children.getLast? = some last →
      (addNewLine children).getLast?
        = some (if last.truthy then .text (last.toStr ++ "\n") else last)) ∧
    (∀ (front : List Html) (s : String), s ≠ "" →
      addNewLine (front ++ [.text s]) = front ++ [.text (s ++ "\n")]) ∧
    addNewLine [] = [] := by
  have hmain : (addNewLine children).length = children.length ∧
      (addNewLine children).dropLast = children.dropLast ∧
      (∀ last, children.getLast? = some last →
        (addNewLine children).getLast?
          = some (if last.truthy then .text (last.toStr ++ "\n") else last)) := by
    unfold addNewLine
    cases hl : children.getLast? with
    | none => simp
    | some last =>
      have hne : children ≠ [] := by
        intro h; rw [h] at hl; simp at hl
      by_cases ht : last.truthy = true
      · simp only [ht, if_true]
        refine ⟨?_, ?_, ?_⟩
        · have : 0 < children.length := List.length_pos.2 hne
          simp only [List.length_append, List.length_dropLast, List.length_singleton]
          omega
        · simp
        · intro l hlast
          injection hlast with hlast
          subst hlast
          simp [ht]
      · simp only [ht]
        refine ⟨rfl, rfl, ?_⟩
        intro l hlast
        injection hlast with hlast
        subst hlast
        simp [hl, ht]
  refine ⟨hmain.1, hmain.2.1, hmain.2.2, ?_, rfl⟩
  intro front s hs
  simp [addNewLine, Html.truthy, hs, Html.toStr]

end MessageComposer
